import Mathlib

/-!
Verification of the libgl matrix utilities.

A shallow embedding of `app/src/main/jni/MatrixUtils.cpp` and of the helpers of
`app/src/main/jni/matrix.h`.

* The arithmetic of `float` is a parameter of every source function: a type
  `α` with `0`, `1`, `+`, `-`, `*`, `/`, negation and a decidable equality
  for the comparisons `==` / `!=` of the source.  Two arithmetics are used:
  exact arithmetic, where `α` is a field, and binary32 (`F32`), the arithmetic
  of the program.  A theorem about a field `α` is a statement about the source
  run in exact arithmetic; it says nothing about rounding, overflow, underflow
  or division by zero, which the theorems about `F32` cover.
* Memory is one flat buffer of floats addressed by integers, so a pointer
  `float*` is an `Int`, `p + k` is pointer arithmetic and two pointers may
  alias.  A C assignment `*(p) = v` is `wr mem p v`, a read `*(p)` is `mem p`.
* The functions of `<math.h>` used by the source (`sin`, `cos`, `sqrt`, `M_PI`)
  are parameters, collected in `Libm`.
* The `static` locals of `invertM` are explicit state (`InvertStatics`).
-/

namespace LibGL

/-- Flat float memory: address (in units of one float) to value. -/
abbrev Buf (α : Type) := Int → α

/-- The assignment `*(a) = v`. -/
def wr {α : Type} (mem : Buf α) (a : Int) (v : α) : Buf α :=
  fun p => if p = a then v else mem p

/-- The functions and constants of `<math.h>` the source calls. -/
structure Libm (α : Type) where
  sin : α → α
  cos : α → α
  sqrt : α → α
  M_PI : α

section Source

variable {α : Type} [Zero α] [One α] [Add α] [Sub α] [Mul α] [Div α] [Neg α]

/-- The macro `#define I(_i, _j) ((_j)+ 4*(_i))` of `MatrixUtils.cpp`. -/
def I (i j : Int) : Int := j + 4 * i

/-- The macro `IDENTITY(_m)` of `matrix.h`: two chained assignments, each
evaluated right to left. -/
def IDENTITY (mem : Buf α) (m : Int) : Buf α :=
  -- _m[1] = _m[2] = _m[3] = _m[4] = _m[6] = _m[7] = _m[8] = _m[9] = _m[11] = 0;
  let mem := wr mem (m + 11) 0
  let mem := wr mem (m + 9) 0
  let mem := wr mem (m + 8) 0
  let mem := wr mem (m + 7) 0
  let mem := wr mem (m + 6) 0
  let mem := wr mem (m + 4) 0
  let mem := wr mem (m + 3) 0
  let mem := wr mem (m + 2) 0
  let mem := wr mem (m + 1) 0
  -- _m[0] = _m[5] = _m[10] = _m[15] = 1;
  let mem := wr mem (m + 15) 1
  let mem := wr mem (m + 10) 1
  let mem := wr mem (m + 5) 1
  let mem := wr mem (m + 0) 1
  mem

/-- The function `mx4transform` of `matrix.h`: four assignments in order, each
reading the matrix from the memory left by the previous one. -/
def mx4transform (x y z w : α) (pM pDest : Int) (mem : Buf α) : Buf α :=
  let mem := wr mem (pDest + 0)
    (mem (pM + (0 + 4 * 0)) * x + mem (pM + (0 + 4 * 1)) * y + mem (pM + (0 + 4 * 2)) * z
      + mem (pM + (0 + 4 * 3)) * w)
  let mem := wr mem (pDest + 1)
    (mem (pM + (1 + 4 * 0)) * x + mem (pM + (1 + 4 * 1)) * y + mem (pM + (1 + 4 * 2)) * z
      + mem (pM + (1 + 4 * 3)) * w)
  let mem := wr mem (pDest + 2)
    (mem (pM + (2 + 4 * 0)) * x + mem (pM + (2 + 4 * 1)) * y + mem (pM + (2 + 4 * 2)) * z
      + mem (pM + (2 + 4 * 3)) * w)
  let mem := wr mem (pDest + 3)
    (mem (pM + (3 + 4 * 0)) * x + mem (pM + (3 + 4 * 1)) * y + mem (pM + (3 + 4 * 2)) * z
      + mem (pM + (3 + 4 * 3)) * w)
  mem

/-- Body of the inner loop `for (int j=1 ; j<4 ; j++)` of `multiplyMM`, on the
four accumulators `(ri0, ri1, ri2, ri3)`. -/
def multiplyMM_inner (mem : Buf α) (lhs rhs : Int) (i : Int) (acc : α × α × α × α)
    (j : Int) : α × α × α × α :=
  let rhs_ij := mem (rhs + I i j)
  (acc.1 + mem (lhs + I j 0) * rhs_ij,
   acc.2.1 + mem (lhs + I j 1) * rhs_ij,
   acc.2.2.1 + mem (lhs + I j 2) * rhs_ij,
   acc.2.2.2 + mem (lhs + I j 3) * rhs_ij)

/-- Body of the outer loop `for (int i=0 ; i<4 ; i++)` of `multiplyMM`. -/
def multiplyMM_outer (r lhs rhs : Int) (mem : Buf α) (i : Int) : Buf α :=
  let rhs_i0 := mem (rhs + I i 0)
  let ri0 := mem (lhs + I 0 0) * rhs_i0
  let ri1 := mem (lhs + I 0 1) * rhs_i0
  let ri2 := mem (lhs + I 0 2) * rhs_i0
  let ri3 := mem (lhs + I 0 3) * rhs_i0
  let acc := [1, 2, 3].foldl (multiplyMM_inner mem lhs rhs i) (ri0, ri1, ri2, ri3)
  let mem := wr mem (r + I i 0) acc.1
  let mem := wr mem (r + I i 1) acc.2.1
  let mem := wr mem (r + I i 2) acc.2.2.1
  let mem := wr mem (r + I i 3) acc.2.2.2
  mem

/-- The function `multiplyMM(float* r, const float* lhs, const float* rhs)`. -/
def multiplyMM (mem : Buf α) (r lhs rhs : Int) : Buf α :=
  [0, 1, 2, 3].foldl (multiplyMM_outer r lhs rhs) mem

/-- The function `multiplyMV(float* r, const float* lhs, const float* rhs)`:
the four components of `rhs` are passed by value to `mx4transform`. -/
def multiplyMV (mem : Buf α) (r lhs rhs : Int) : Buf α :=
  mx4transform (mem (rhs + 0)) (mem (rhs + 1)) (mem (rhs + 2)) (mem (rhs + 3)) lhs r mem

/-- Body of the loop of `scaleM`. -/
def scaleM_body (sm smOffset : Int) (x y z : α) (mem : Buf α) (i : Int) : Buf α :=
  let smi := smOffset + i
  let mem := wr mem (sm + smi) (mem (sm + smi) * x)
  let mem := wr mem (sm + 4 + smi) (mem (sm + 4 + smi) * y)
  let mem := wr mem (sm + 8 + smi) (mem (sm + 8 + smi) * z)
  mem

/-- The function `scaleM(float* sm, int smOffset, float x, float y, float z)`. -/
def scaleM (mem : Buf α) (sm smOffset : Int) (x y z : α) : Buf α :=
  [0, 1, 2, 3].foldl (scaleM_body sm smOffset x y z) mem

/-- Body of the loop of `translateM`. -/
def translateM_body (tm tmOffset : Int) (x y z : α) (mem : Buf α) (i : Int) : Buf α :=
  let tmi := tmOffset + i
  wr mem (tm + 12 + tmi)
    (mem (tm + 12 + tmi) + (mem (tm + tmi) * x + mem (tm + 4 + tmi) * y + mem (tm + 8 + tmi) * z))

/-- The function `translateM(float* tm, const int tmOffset, float x, float y, float z)`. -/
def translateM (mem : Buf α) (tm tmOffset : Int) (x y z : α) : Buf α :=
  [0, 1, 2, 3].foldl (translateM_body tm tmOffset x y z) mem

end Source

section Source2

variable {α : Type} [Zero α] [One α] [Add α] [Sub α] [Mul α] [Div α] [Neg α] [DecidableEq α]

section Rotate

variable [OfNat α 180]

/-- The function `rotateM(float* rm, int rmOffset, float angle, float x, float y, float z)`. -/
def rotateM (L : Libm α) (mem : Buf α) (rm rmOffset : Int) (angle x y z : α) : Buf α :=
  let mem := wr mem (rm + rmOffset + 3) 0
  let mem := wr mem (rm + rmOffset + 7) 0
  let mem := wr mem (rm + rmOffset + 11) 0
  let mem := wr mem (rm + rmOffset + 12) 0
  let mem := wr mem (rm + rmOffset + 13) 0
  let mem := wr mem (rm + rmOffset + 14) 0
  let mem := wr mem (rm + rmOffset + 15) 1
  let angle := angle * (L.M_PI / 180)
  let s := L.sin angle
  let c := L.cos angle
  if 1 = x ∧ 0 = y ∧ 0 = z then
    let mem := wr mem (rm + rmOffset + 5) c
    let mem := wr mem (rm + rmOffset + 10) c
    let mem := wr mem (rm + rmOffset + 6) s
    let mem := wr mem (rm + rmOffset + 9) (-s)
    let mem := wr mem (rm + rmOffset + 1) 0
    let mem := wr mem (rm + rmOffset + 2) 0
    let mem := wr mem (rm + rmOffset + 4) 0
    let mem := wr mem (rm + rmOffset + 8) 0
    let mem := wr mem (rm + rmOffset + 0) 1
    mem
  else if 0 = x ∧ 1 = y ∧ 0 = z then
    let mem := wr mem (rm + rmOffset + 0) c
    let mem := wr mem (rm + rmOffset + 10) c
    let mem := wr mem (rm + rmOffset + 8) s
    let mem := wr mem (rm + rmOffset + 2) (-s)
    let mem := wr mem (rm + rmOffset + 1) 0
    let mem := wr mem (rm + rmOffset + 4) 0
    let mem := wr mem (rm + rmOffset + 6) 0
    let mem := wr mem (rm + rmOffset + 9) 0
    let mem := wr mem (rm + rmOffset + 5) 1
    mem
  else if 0 = x ∧ 0 = y ∧ 1 = z then
    let mem := wr mem (rm + rmOffset + 0) c
    let mem := wr mem (rm + rmOffset + 5) c
    let mem := wr mem (rm + rmOffset + 1) s
    let mem := wr mem (rm + rmOffset + 4) (-s)
    let mem := wr mem (rm + rmOffset + 2) 0
    let mem := wr mem (rm + rmOffset + 6) 0
    let mem := wr mem (rm + rmOffset + 8) 0
    let mem := wr mem (rm + rmOffset + 9) 0
    let mem := wr mem (rm + rmOffset + 10) 1
    mem
  else
    let len := L.sqrt (x * x + y * y + z * z)
    -- if (1.0f != len) { recipLen = 1.0f / len; x *= recipLen; y *= recipLen; z *= recipLen; }
    let recipLen := 1 / len
    let x := if 1 ≠ len then x * recipLen else x
    let y := if 1 ≠ len then y * recipLen else y
    let z := if 1 ≠ len then z * recipLen else z
    let nc := 1 - c
    let xy := x * y
    let yz := y * z
    let zx := z * x
    let xs := x * s
    let ys := y * s
    let zs := z * s
    let mem := wr mem (rm + rmOffset + 0) (x * x * nc + c)
    let mem := wr mem (rm + rmOffset + 4) (xy * nc - zs)
    let mem := wr mem (rm + rmOffset + 8) (zx * nc + ys)
    let mem := wr mem (rm + rmOffset + 1) (xy * nc + zs)
    let mem := wr mem (rm + rmOffset + 5) (y * y * nc + c)
    let mem := wr mem (rm + rmOffset + 9) (yz * nc - xs)
    let mem := wr mem (rm + rmOffset + 2) (zx * nc - ys)
    let mem := wr mem (rm + rmOffset + 6) (yz * nc + xs)
    let mem := wr mem (rm + rmOffset + 10) (z * z * nc + c)
    mem

end Rotate

/-- The function `setLookAtM`. -/
def setLookAtM (L : Libm α) (mem : Buf α) (rm rmOffset : Int) (eyeX eyeY eyeZ : α)
    (centerX centerY centerZ : α) (upX upY upZ : α) : Buf α :=
  let fx := centerX - eyeX
  let fy := centerY - eyeY
  let fz := centerZ - eyeZ
  -- Normalize f
  let rlf := 1 / L.sqrt (fx * fx + fy * fy + fz * fz)
  let fx := fx * rlf
  let fy := fy * rlf
  let fz := fz * rlf
  -- compute s = f x up (x means "cross product")
  let sx := fy * upZ - fz * upY
  let sy := fz * upX - fx * upZ
  let sz := fx * upY - fy * upX
  -- and normalize s
  let rls := 1 / L.sqrt (sx * sx + sy * sy + sz * sz)
  let sx := sx * rls
  let sy := sy * rls
  let sz := sz * rls
  -- compute u = s x f
  let ux := sy * fz - sz * fy
  let uy := sz * fx - sx * fz
  let uz := sx * fy - sy * fx
  let mem := wr mem (rm + (rmOffset + 0)) sx
  let mem := wr mem (rm + (rmOffset + 1)) ux
  let mem := wr mem (rm + (rmOffset + 2)) (-fx)
  let mem := wr mem (rm + (rmOffset + 3)) 0
  let mem := wr mem (rm + (rmOffset + 4)) sy
  let mem := wr mem (rm + (rmOffset + 5)) uy
  let mem := wr mem (rm + (rmOffset + 6)) (-fy)
  let mem := wr mem (rm + (rmOffset + 7)) 0
  let mem := wr mem (rm + (rmOffset + 8)) sz
  let mem := wr mem (rm + (rmOffset + 9)) uz
  let mem := wr mem (rm + (rmOffset + 10)) (-fz)
  let mem := wr mem (rm + (rmOffset + 11)) 0
  let mem := wr mem (rm + (rmOffset + 12)) 0
  let mem := wr mem (rm + (rmOffset + 13)) 0
  let mem := wr mem (rm + (rmOffset + 14)) 0
  let mem := wr mem (rm + (rmOffset + 15)) 1
  translateM mem rm rmOffset (-eyeX) (-eyeY) (-eyeZ)

/-- The `static` locals of `invertM`: they keep their values between calls. -/
structure InvertStatics (α : Type) where
  srcMatrix : Buf α
  atmp : Buf α
  btmp : Buf α
  dstMatrix : Buf α
  invdet : α
  det : α

/-- What a call of `invertM` leaves: the returned `bool`, the memory and the
`static` locals. -/
structure InvertResult (α : Type) where
  ret : Bool
  mem : Buf α
  statics : InvertStatics α

/-- First part of `invertM` (source lines 169 to 252): the straight-line code
that fills the `static` scratch arrays from the source matrix and computes
`det`.  It reads memory and writes only the `static` locals. -/
def invertM_scratch (st : InvertStatics α) (mem : Buf α) (m mOffset : Int) : InvertStatics α :=
  let srcMatrix := st.srcMatrix
  let atmp := st.atmp
  let btmp := st.btmp
  let dstMatrix := st.dstMatrix
  -- transpose matrix
  let srcMatrix := wr srcMatrix 0 (mem (m + mOffset + 0))
  let srcMatrix := wr srcMatrix 4 (mem (m + mOffset + 1))
  let srcMatrix := wr srcMatrix 8 (mem (m + mOffset + 2))
  let srcMatrix := wr srcMatrix 12 (mem (m + mOffset + 3))
  let srcMatrix := wr srcMatrix 1 (mem (m + mOffset + 4))
  let srcMatrix := wr srcMatrix 5 (mem (m + mOffset + 5))
  let srcMatrix := wr srcMatrix 9 (mem (m + mOffset + 6))
  let srcMatrix := wr srcMatrix 13 (mem (m + mOffset + 7))
  let srcMatrix := wr srcMatrix 2 (mem (m + mOffset + 8))
  let srcMatrix := wr srcMatrix 6 (mem (m + mOffset + 9))
  let srcMatrix := wr srcMatrix 10 (mem (m + mOffset + 10))
  let srcMatrix := wr srcMatrix 14 (mem (m + mOffset + 11))
  let srcMatrix := wr srcMatrix 3 (mem (m + mOffset + 12))
  let srcMatrix := wr srcMatrix 7 (mem (m + mOffset + 13))
  let srcMatrix := wr srcMatrix 11 (mem (m + mOffset + 14))
  let srcMatrix := wr srcMatrix 15 (mem (m + mOffset + 15))
  -- calculate pairs for first 8 elements (cofactors)
  let atmp := wr atmp 0 (srcMatrix 10 * srcMatrix 15)
  let atmp := wr atmp 1 (srcMatrix 11 * srcMatrix 14)
  let atmp := wr atmp 2 (srcMatrix 9 * srcMatrix 15)
  let atmp := wr atmp 3 (srcMatrix 11 * srcMatrix 13)
  let atmp := wr atmp 4 (srcMatrix 9 * srcMatrix 14)
  let atmp := wr atmp 5 (srcMatrix 10 * srcMatrix 13)
  let atmp := wr atmp 6 (srcMatrix 8 * srcMatrix 15)
  let atmp := wr atmp 7 (srcMatrix 11 * srcMatrix 12)
  let atmp := wr atmp 8 (srcMatrix 8 * srcMatrix 14)
  let atmp := wr atmp 9 (srcMatrix 10 * srcMatrix 12)
  let atmp := wr atmp 10 (srcMatrix 8 * srcMatrix 13)
  let atmp := wr atmp 11 (srcMatrix 9 * srcMatrix 12)
  -- calculate first 8 elements (cofactors)
  let dstMatrix := wr dstMatrix 0
    ((atmp 0 * srcMatrix 5 + atmp 3 * srcMatrix 6 + atmp 4 * srcMatrix 7)
      - (atmp 1 * srcMatrix 5 + atmp 2 * srcMatrix 6 + atmp 5 * srcMatrix 7))
  let dstMatrix := wr dstMatrix 1
    ((atmp 1 * srcMatrix 4 + atmp 6 * srcMatrix 6 + atmp 9 * srcMatrix 7)
      - (atmp 0 * srcMatrix 4 + atmp 7 * srcMatrix 6 + atmp 8 * srcMatrix 7))
  let dstMatrix := wr dstMatrix 2
    ((atmp 2 * srcMatrix 4 + atmp 7 * srcMatrix 5 + atmp 10 * srcMatrix 7)
      - (atmp 3 * srcMatrix 4 + atmp 6 * srcMatrix 5 + atmp 11 * srcMatrix 7))
  let dstMatrix := wr dstMatrix 3
    ((atmp 5 * srcMatrix 4 + atmp 8 * srcMatrix 5 + atmp 11 * srcMatrix 6)
      - (atmp 4 * srcMatrix 4 + atmp 9 * srcMatrix 5 + atmp 10 * srcMatrix 6))
  let dstMatrix := wr dstMatrix 4
    ((atmp 1 * srcMatrix 1 + atmp 2 * srcMatrix 2 + atmp 5 * srcMatrix 3)
      - (atmp 0 * srcMatrix 1 + atmp 3 * srcMatrix 2 + atmp 4 * srcMatrix 3))
  let dstMatrix := wr dstMatrix 5
    ((atmp 0 * srcMatrix 0 + atmp 7 * srcMatrix 2 + atmp 8 * srcMatrix 3)
      - (atmp 1 * srcMatrix 0 + atmp 6 * srcMatrix 2 + atmp 9 * srcMatrix 3))
  let dstMatrix := wr dstMatrix 6
    ((atmp 3 * srcMatrix 0 + atmp 6 * srcMatrix 1 + atmp 11 * srcMatrix 3)
      - (atmp 2 * srcMatrix 0 + atmp 7 * srcMatrix 1 + atmp 10 * srcMatrix 3))
  let dstMatrix := wr dstMatrix 7
    ((atmp 4 * srcMatrix 0 + atmp 9 * srcMatrix 1 + atmp 10 * srcMatrix 2)
      - (atmp 5 * srcMatrix 0 + atmp 8 * srcMatrix 1 + atmp 11 * srcMatrix 2))
  -- calculate pairs for second 8 elements (cofactors)
  let btmp := wr btmp 0 (srcMatrix 2 * srcMatrix 7)
  let btmp := wr btmp 1 (srcMatrix 3 * srcMatrix 6)
  let btmp := wr btmp 2 (srcMatrix 1 * srcMatrix 7)
  let btmp := wr btmp 3 (srcMatrix 3 * srcMatrix 5)
  let btmp := wr btmp 4 (srcMatrix 1 * srcMatrix 6)
  let btmp := wr btmp 5 (srcMatrix 2 * srcMatrix 5)
  let btmp := wr btmp 6 (srcMatrix 0 * srcMatrix 7)
  let btmp := wr btmp 7 (srcMatrix 3 * srcMatrix 4)
  let btmp := wr btmp 8 (srcMatrix 0 * srcMatrix 6)
  let btmp := wr btmp 9 (srcMatrix 2 * srcMatrix 4)
  let btmp := wr btmp 10 (srcMatrix 0 * srcMatrix 5)
  let btmp := wr btmp 11 (srcMatrix 1 * srcMatrix 4)
  -- calculate second 8 elements (cofactors)
  let dstMatrix := wr dstMatrix 8
    ((btmp 0 * srcMatrix 13 + btmp 3 * srcMatrix 14 + btmp 4 * srcMatrix 15)
      - (btmp 1 * srcMatrix 13 + btmp 2 * srcMatrix 14 + btmp 5 * srcMatrix 15))
  let dstMatrix := wr dstMatrix 9
    ((btmp 1 * srcMatrix 12 + btmp 6 * srcMatrix 14 + btmp 9 * srcMatrix 15)
      - (btmp 0 * srcMatrix 12 + btmp 7 * srcMatrix 14 + btmp 8 * srcMatrix 15))
  let dstMatrix := wr dstMatrix 10
    ((btmp 2 * srcMatrix 12 + btmp 7 * srcMatrix 13 + btmp 10 * srcMatrix 15)
      - (btmp 3 * srcMatrix 12 + btmp 6 * srcMatrix 13 + btmp 11 * srcMatrix 15))
  let dstMatrix := wr dstMatrix 11
    ((btmp 5 * srcMatrix 12 + btmp 8 * srcMatrix 13 + btmp 11 * srcMatrix 14)
      - (btmp 4 * srcMatrix 12 + btmp 9 * srcMatrix 13 + btmp 10 * srcMatrix 14))
  let dstMatrix := wr dstMatrix 12
    ((btmp 2 * srcMatrix 10 + btmp 5 * srcMatrix 11 + btmp 1 * srcMatrix 9)
      - (btmp 4 * srcMatrix 11 + btmp 0 * srcMatrix 9 + btmp 3 * srcMatrix 10))
  let dstMatrix := wr dstMatrix 13
    ((btmp 8 * srcMatrix 11 + btmp 0 * srcMatrix 8 + btmp 7 * srcMatrix 10)
      - (btmp 6 * srcMatrix 10 + btmp 9 * srcMatrix 11 + btmp 1 * srcMatrix 8))
  let dstMatrix := wr dstMatrix 14
    ((btmp 6 * srcMatrix 9 + btmp 11 * srcMatrix 11 + btmp 3 * srcMatrix 8)
      - (btmp 10 * srcMatrix 11 + btmp 2 * srcMatrix 8 + btmp 7 * srcMatrix 9))
  let dstMatrix := wr dstMatrix 15
    ((btmp 10 * srcMatrix 10 + btmp 4 * srcMatrix 8 + btmp 9 * srcMatrix 9)
      - (btmp 8 * srcMatrix 9 + btmp 11 * srcMatrix 10 + btmp 5 * srcMatrix 8))
  -- calculate determinant
  let det := srcMatrix 0 * dstMatrix 0 + srcMatrix 1 * dstMatrix 1 + srcMatrix 2 * dstMatrix 2
    + srcMatrix 3 * dstMatrix 3
  ⟨srcMatrix, atmp, btmp, dstMatrix, st.invdet, det⟩

/-- The function `invertM(float* mInv, const int mInvOffset, float* m, const int mOffset)`:
the scratch computation of `invertM_scratch`, then the test `det == 0.0` and
the sixteen stores to `mInv`. -/
def invertM (st : InvertStatics α) (mem : Buf α) (mInv mInvOffset m mOffset : Int) :
    InvertResult α :=
  let st := invertM_scratch st mem m mOffset
  let dstMatrix := st.dstMatrix
  let det := st.det
  if det = 0 then
    ⟨false, mem, st⟩
  else
    -- calculate matrix inverse
    let invdet := 1 / det
    let mem := wr mem (mInv + mInvOffset) (dstMatrix 0 * invdet)
    let mem := wr mem (mInv + 1 + mInvOffset) (dstMatrix 1 * invdet)
    let mem := wr mem (mInv + 2 + mInvOffset) (dstMatrix 2 * invdet)
    let mem := wr mem (mInv + 3 + mInvOffset) (dstMatrix 3 * invdet)
    let mem := wr mem (mInv + 4 + mInvOffset) (dstMatrix 4 * invdet)
    let mem := wr mem (mInv + 5 + mInvOffset) (dstMatrix 5 * invdet)
    let mem := wr mem (mInv + 6 + mInvOffset) (dstMatrix 6 * invdet)
    let mem := wr mem (mInv + 7 + mInvOffset) (dstMatrix 7 * invdet)
    let mem := wr mem (mInv + 8 + mInvOffset) (dstMatrix 8 * invdet)
    let mem := wr mem (mInv + 9 + mInvOffset) (dstMatrix 9 * invdet)
    let mem := wr mem (mInv + 10 + mInvOffset) (dstMatrix 10 * invdet)
    let mem := wr mem (mInv + 11 + mInvOffset) (dstMatrix 11 * invdet)
    let mem := wr mem (mInv + 12 + mInvOffset) (dstMatrix 12 * invdet)
    let mem := wr mem (mInv + 13 + mInvOffset) (dstMatrix 13 * invdet)
    let mem := wr mem (mInv + 14 + mInvOffset) (dstMatrix 14 * invdet)
    let mem := wr mem (mInv + 15 + mInvOffset) (dstMatrix 15 * invdet)
    ⟨true, mem, ⟨st.srcMatrix, st.atmp, st.btmp, st.dstMatrix, invdet, st.det⟩⟩

end Source2

/-! ## The arithmetic of `float`: binary32

The source functions above take the arithmetic of `float` as a parameter.
`F32` is IEEE 754 binary32 with round to nearest, ties to even: finite values
`m * 2^e` with `m < 2^24` and `-149 ≤ e ≤ 104`, the two infinities and NaN.
Every operation of the source rounds its result to binary32 (no wider
intermediate format, no fused multiply-add).  A binary32 value is a term
that satisfies `IsFloat`; every rounded result is one, whatever the operands.
The two zeros of binary32 are one value here: they compare equal in C, and the
source divides by no zero other than `+0`.  For the tests `==` and `!=` of
the source, which all have the constant 0 or 1 on one side, equality of `F32`
is the comparison of C. -/

/-- Number of binary digits of `m`, for `m` below `2 ^ fuel`; `bitLength m m`
is the number of binary digits of `m`, as `m` is below `2 ^ m`. -/
def bitLength : Nat → Nat → Nat
  | 0, _ => 0
  | fuel + 1, m => if m = 0 then 0 else bitLength fuel (m / 2) + 1

/-- Integer square root: the bits `i - 1, ..., 0` of the root are decided in
turn, starting from the partial root `r`. -/
def isqrtAux (n : Nat) : Nat → Nat → Nat
  | 0, r => r
  | i + 1, r =>
    if (r + 2 ^ i) * (r + 2 ^ i) ≤ n then isqrtAux n i (r + 2 ^ i) else isqrtAux n i r

/-- A binary32 value: NaN, an infinity, or the finite value
`(-1)^neg * m * 2^e`. -/
inductive F32 where
  | nan : F32
  | inf (neg : Bool) : F32
  | fin (neg : Bool) (m : Nat) (e : Int) : F32
  deriving DecidableEq

namespace F32

/-- The zero of binary32. -/
def zero : F32 := fin false 0 (-149)

/-- The binary32 value nearest to `(-1)^neg * m * 2^e`, ties to even; overflow
gives an infinity, underflow a subnormal or zero. -/
def round (neg : Bool) (m : Nat) (e : Int) : F32 :=
  if m = 0 then zero
  else
    let e' : Int := max (e + (bitLength m m : Int) - 24) (-149)
    if e' ≤ e then
      if 104 < e' then inf neg else fin neg (m * 2 ^ (e - e').toNat) e'
    else
      let sh := (e' - e).toNat
      let q := m / 2 ^ sh
      let r := m % 2 ^ sh
      let half := 2 ^ (sh - 1)
      let q := if half < r ∨ (r = half ∧ q % 2 = 1) then q + 1 else q
      if q = 0 then zero
      else if q = 2 ^ 24 then (if 104 < e' + 1 then inf neg else fin neg (2 ^ 23) (e' + 1))
      else if 104 < e' then inf neg
      else fin neg q e'

/-- The binary32 value of a natural number. -/
def ofNat (n : Nat) : F32 := round false n 0

/-- Negation. -/
def neg : F32 → F32
  | nan => nan
  | inf s => inf (!s)
  | fin s m e => if m = 0 then zero else fin (!s) m e

/-- Multiplication: the exact product, rounded; `0 * inf` is NaN. -/
def mul : F32 → F32 → F32
  | nan, _ => nan
  | _, nan => nan
  | inf s, inf t => inf (xor s t)
  | inf s, fin t m _ => if m = 0 then nan else inf (xor s t)
  | fin s m _, inf t => if m = 0 then nan else inf (xor s t)
  | fin s m e, fin t n f => round (xor s t) (m * n) (e + f)

/-- Addition: the exact sum, rounded; `inf + (-inf)` is NaN. -/
def add : F32 → F32 → F32
  | nan, _ => nan
  | _, nan => nan
  | inf s, inf t => if s = t then inf s else nan
  | inf s, fin _ _ _ => inf s
  | fin _ _ _, inf t => inf t
  | fin s m e, fin t n f =>
    let g := min e f
    let a : Int :=
      if s then -((m * 2 ^ (e - g).toNat : Nat) : Int) else ((m * 2 ^ (e - g).toNat : Nat) : Int)
    let b : Int :=
      if t then -((n * 2 ^ (f - g).toNat : Nat) : Int) else ((n * 2 ^ (f - g).toNat : Nat) : Int)
    round (decide (a + b < 0)) (a + b).natAbs g

/-- Subtraction. -/
def sub (a b : F32) : F32 := add a (neg b)

/-- Division: the exact quotient, rounded (64 extra quotient bits and a sticky
bit); `x / 0` is an infinity for `x ≠ 0`, and `0 / 0`, `inf / inf` are NaN. -/
def div : F32 → F32 → F32
  | nan, _ => nan
  | _, nan => nan
  | inf _, inf _ => nan
  | inf s, fin t _ _ => inf (xor s t)
  | fin _ _ _, inf _ => zero
  | fin s m e, fin t n f =>
    if n = 0 then (if m = 0 then nan else inf s)
    else
      let q := (m * 2 ^ 64) / n
      let r := (m * 2 ^ 64) % n
      round (xor s t) (2 * q + (if r = 0 then 0 else 1)) (e - f - 65)

/-- Square root, correctly rounded (integer root of the mantissa shifted by 60
or 61 bits, and a sticky bit); NaN for negative arguments. -/
def sqrt : F32 → F32
  | nan => nan
  | inf s => if s then nan else inf false
  | fin s m e =>
    if m = 0 then zero
    else if s then nan
    else
      let k : Nat := if (e - 60) % 2 = 0 then 60 else 61
      let n := m * 2 ^ k
      let r := isqrtAux n (bitLength n n) 0
      round false (2 * r + (if r * r = n then 0 else 1)) ((e - (k : Int)) / 2 - 1)

/-- The rational value of a finite binary32 value (0 for infinities and NaN). -/
def toRat : F32 → ℚ
  | nan => 0
  | inf _ => 0
  | fin s m e => (if s then -1 else 1) * (m : ℚ) * (2 : ℚ) ^ e

/-- The representations of the binary32 values: NaN, the infinities, the zero
`fin false 0 (-149)` and the finite values `m * 2^e` with `0 < m < 2^24`,
`-149 ≤ e ≤ 104` and a normalised mantissa (`2^23 ≤ m`) unless `e = -149`. -/
def IsFloat : F32 → Prop
  | nan => True
  | inf _ => True
  | fin s m e =>
    (s = false ∧ m = 0 ∧ e = -149) ∨
      (0 < m ∧ m < 2 ^ 24 ∧ -149 ≤ e ∧ e ≤ 104 ∧ (2 ^ 23 ≤ m ∨ e = -149))

instance : DecidablePred IsFloat := fun x =>
  match x with
  | nan => isTrue trivial
  | inf _ => isTrue trivial
  | fin s m e =>
    inferInstanceAs (Decidable ((s = false ∧ m = 0 ∧ e = -149) ∨
      (0 < m ∧ m < 2 ^ 24 ∧ -149 ≤ e ∧ e ≤ 104 ∧ (2 ^ 23 ≤ m ∨ e = -149))))

/-- The finite values: neither NaN nor an infinity. -/
def IsFinite : F32 → Prop
  | fin _ _ _ => True
  | _ => False

instance : DecidablePred IsFinite := fun x =>
  match x with
  | nan => isFalse (fun h => h)
  | inf _ => isFalse (fun h => h)
  | fin _ _ _ => isTrue trivial

instance : Zero F32 := ⟨zero⟩

instance : One F32 := ⟨ofNat 1⟩

instance : Add F32 := ⟨add⟩

instance : Sub F32 := ⟨sub⟩

instance : Mul F32 := ⟨mul⟩

instance : Div F32 := ⟨div⟩

instance : Neg F32 := ⟨neg⟩

instance : OfNat F32 180 := ⟨ofNat 180⟩

end F32

/-- The float `0x3fc90fdb`, nearest to pi/2: the angle `rotateM` computes for
90 degrees. -/
def quarterTurn32 : F32 := F32.fin false 13176795 (-23)

/-- The C library on binary32, as far as it is needed here: `sqrt` is the
correctly rounded square root and `M_PI` is the float nearest to pi, so that
`M_PI / 180` is `9370165 * 2^-29`, the float that `(float) (M_PI / 180.0f)`
is; `sin` and `cos` are given at the angle `quarterTurn32` only, where `sin`
rounds to 1 and `cos` rounds to `-4.37113883e-8 = -12303662 * 2^-48`, and are
NaN elsewhere. -/
def libm32 : Libm F32 where
  sin := fun a => if a = quarterTurn32 then 1 else F32.nan
  cos := fun a => if a = quarterTurn32 then F32.fin true 12303662 (-48) else F32.nan
  sqrt := F32.sqrt
  M_PI := F32.fin false 13176795 (-22)

/-- Static locals of `invertM` before any call, in binary32. -/
def statics32 : InvertStatics F32 := ⟨fun _ => 0, fun _ => 0, fun _ => 0, fun _ => 0, 0, 0⟩

/-- A binary32 memory holding at addresses 0..15 the matrix with `2^-40` on
the diagonal and 0 elsewhere. -/
def memTiny32 : Buf F32 := fun p =>
  if p = 0 ∨ p = 5 ∨ p = 10 ∨ p = 15 then F32.fin false (2 ^ 23) (-63) else 0

/-- A binary32 memory holding at addresses 0..15 the matrix with `2^40` on the
diagonal and 0 elsewhere. -/
def memHuge32 : Buf F32 := fun p =>
  if p = 0 ∨ p = 5 ∨ p = 10 ∨ p = 15 then F32.fin false (2 ^ 23) 17 else 0

/-- A memory whose addresses 0..15 hold the values 1..16 and whose addresses
16..31 hold the translation matrix of `(1, 2, 3)`: the identity with 1, 2, 3
at positions 12, 13, 14 (addresses 28, 29, 30). -/
def memCountTranslation : Buf ℚ := fun p =>
  if 0 ≤ p ∧ p < 16 then (p : ℚ) + 1
  else if p = 16 ∨ p = 21 ∨ p = 26 ∨ p = 31 ∨ p = 28 then 1
  else if p = 29 then 2 else if p = 30 then 3 else 0

/-! ## Vocabulary of the specification and concrete inputs -/

/-- Memory after the caller has stored the 4-vector `(x, y, z, w)` at `v`. -/
def storeVec4 {α : Type} (mem : Buf α) (v : Int) (x y z w : α) : Buf α :=
  wr (wr (wr (wr mem (v + 0) x) (v + 1) y) (v + 2) z) (v + 3) w

section SpecSide

variable {α : Type} [Field α]

/-- Entry at buffer position `k` of the identity matrix: 1 at positions
0, 5, 10 and 15, and 0 elsewhere. -/
def identityAt (k : Int) : α := if k = 0 ∨ k = 5 ∨ k = 10 ∨ k = 15 then 1 else 0

/-- The 16 floats at `base` read as a 4x4 matrix in the layout of the
specification: row `i`, column `j` at buffer position `j + 4*i`. -/
def toMatrix (mem : Buf α) (base : Int) : Matrix (Fin 4) (Fin 4) α :=
  Matrix.of fun i j => mem (base + I (i : ℕ) (j : ℕ))

/-- Cross product of two 3-vectors. -/
def cross (a b : α × α × α) : α × α × α :=
  (a.2.1 * b.2.2 - a.2.2 * b.2.1, a.2.2 * b.1 - a.1 * b.2.2, a.1 * b.2.1 - a.2.1 * b.1)

/-- Dot product of two 3-vectors. -/
def dot (a b : α × α × α) : α := a.1 * b.1 + a.2.1 * b.2.1 + a.2.2 * b.2.2

/-- Length of a 3-vector, with the square root of `<math.h>`. -/
def vlength (L : Libm α) (a : α × α × α) : α := L.sqrt (dot a a)

/-- The 3-vector `a` divided by its length. -/
def normalize (L : Libm α) (a : α × α × α) : α × α × α :=
  (a.1 / vlength L a, a.2.1 / vlength L a, a.2.2 / vlength L a)

end SpecSide

/-- Static locals of `invertM` before any call: zero-initialised. -/
def statics0 : InvertStatics ℚ := ⟨fun _ => 0, fun _ => 0, fun _ => 0, fun _ => 0, 0, 0⟩

/-- A memory holding at addresses 0..15 the matrix `diag(2, 2, 2, 2)` and 0 elsewhere. -/
def memDiag2 : Buf ℚ := fun p => if p = 0 ∨ p = 5 ∨ p = 10 ∨ p = 15 then 2 else 0

/-- The all-zero memory. -/
def memZero : Buf ℚ := fun _ => 0

/-- A memory holding 7 at every address. -/
def memSevens : Buf ℚ := fun _ => 7

/-- A memory with two matrices: at 0..15 the matrix whose only non-zero
element is a 1 at position 1, at 16..31 the matrix whose only non-zero element
is a 1 at position 5 (address 21). -/
def memUnits : Buf ℚ := fun p => if p = 1 ∨ p = 21 then 1 else 0

/-- A memory with a matrix at 0..15 whose only non-zero element is a 1 at
position 1, and the vector `(0, 1, 0, 0)` at 16..19. -/
def memUnitVec : Buf ℚ := fun p => if p = 1 ∨ p = 17 then 1 else 0

/-- A memory whose addresses 0..15 hold the values 1..16 and 0 elsewhere. -/
def memCount : Buf ℚ := fun p => if 0 ≤ p ∧ p < 16 then (p : ℚ) + 1 else 0

/-- A memory whose addresses 0..15 hold the values 1..16 and whose addresses
16..31 hold the identity matrix. -/
def memCountId : Buf ℚ := fun p =>
  if 0 ≤ p ∧ p < 16 then (p : ℚ) + 1
  else if p = 16 ∨ p = 21 ∨ p = 26 ∨ p = 31 then 1 else 0

/-! ## Parts of the source run on their own, and further inputs -/

section SourceParts

variable {α : Type} [Zero α] [One α] [Add α] [Sub α] [Mul α] [Div α] [Neg α] [DecidableEq α]

section RotateGeneral

variable [OfNat α 180]

/-- The general-axis branch of `rotateM` taken unconditionally: the seven
stores and the `sin` and `cos` of source lines 51 to 60, then the last `else`
block (source lines 80 to 102). -/
def rotateM_general (L : Libm α) (mem : Buf α) (rm rmOffset : Int) (angle x y z : α) : Buf α :=
  let mem := wr mem (rm + rmOffset + 3) 0
  let mem := wr mem (rm + rmOffset + 7) 0
  let mem := wr mem (rm + rmOffset + 11) 0
  let mem := wr mem (rm + rmOffset + 12) 0
  let mem := wr mem (rm + rmOffset + 13) 0
  let mem := wr mem (rm + rmOffset + 14) 0
  let mem := wr mem (rm + rmOffset + 15) 1
  let angle := angle * (L.M_PI / 180)
  let s := L.sin angle
  let c := L.cos angle
  let len := L.sqrt (x * x + y * y + z * z)
  -- if (1.0f != len) { recipLen = 1.0f / len; x *= recipLen; y *= recipLen; z *= recipLen; }
  let recipLen := 1 / len
  let x := if 1 ≠ len then x * recipLen else x
  let y := if 1 ≠ len then y * recipLen else y
  let z := if 1 ≠ len then z * recipLen else z
  let nc := 1 - c
  let xy := x * y
  let yz := y * z
  let zx := z * x
  let xs := x * s
  let ys := y * s
  let zs := z * s
  let mem := wr mem (rm + rmOffset + 0) (x * x * nc + c)
  let mem := wr mem (rm + rmOffset + 4) (xy * nc - zs)
  let mem := wr mem (rm + rmOffset + 8) (zx * nc + ys)
  let mem := wr mem (rm + rmOffset + 1) (xy * nc + zs)
  let mem := wr mem (rm + rmOffset + 5) (y * y * nc + c)
  let mem := wr mem (rm + rmOffset + 9) (yz * nc - xs)
  let mem := wr mem (rm + rmOffset + 2) (zx * nc - ys)
  let mem := wr mem (rm + rmOffset + 6) (yz * nc + xs)
  let mem := wr mem (rm + rmOffset + 10) (z * z * nc + c)
  mem

end RotateGeneral

/-- Second part of `invertM` (source lines 254 to 280) resumed on given
`static` locals: the test `det == 0.0` and the sixteen stores to `mInv`, which
read `dstMatrix` and `det` from the `static` locals. -/
def invertM_stores (st : InvertStatics α) (mem : Buf α) (mInv mInvOffset : Int) :
    InvertResult α :=
  let dstMatrix := st.dstMatrix
  let det := st.det
  if det = 0 then
    ⟨false, mem, st⟩
  else
    -- calculate matrix inverse
    let invdet := 1 / det
    let mem := wr mem (mInv + mInvOffset) (dstMatrix 0 * invdet)
    let mem := wr mem (mInv + 1 + mInvOffset) (dstMatrix 1 * invdet)
    let mem := wr mem (mInv + 2 + mInvOffset) (dstMatrix 2 * invdet)
    let mem := wr mem (mInv + 3 + mInvOffset) (dstMatrix 3 * invdet)
    let mem := wr mem (mInv + 4 + mInvOffset) (dstMatrix 4 * invdet)
    let mem := wr mem (mInv + 5 + mInvOffset) (dstMatrix 5 * invdet)
    let mem := wr mem (mInv + 6 + mInvOffset) (dstMatrix 6 * invdet)
    let mem := wr mem (mInv + 7 + mInvOffset) (dstMatrix 7 * invdet)
    let mem := wr mem (mInv + 8 + mInvOffset) (dstMatrix 8 * invdet)
    let mem := wr mem (mInv + 9 + mInvOffset) (dstMatrix 9 * invdet)
    let mem := wr mem (mInv + 10 + mInvOffset) (dstMatrix 10 * invdet)
    let mem := wr mem (mInv + 11 + mInvOffset) (dstMatrix 11 * invdet)
    let mem := wr mem (mInv + 12 + mInvOffset) (dstMatrix 12 * invdet)
    let mem := wr mem (mInv + 13 + mInvOffset) (dstMatrix 13 * invdet)
    let mem := wr mem (mInv + 14 + mInvOffset) (dstMatrix 14 * invdet)
    let mem := wr mem (mInv + 15 + mInvOffset) (dstMatrix 15 * invdet)
    ⟨true, mem, ⟨st.srcMatrix, st.atmp, st.btmp, st.dstMatrix, invdet, st.det⟩⟩

/-- Two calls `invertM(invA, 0, a, 0)` and `invertM(invB, 0, b, 0)` that overlap
in time on the shared `static` locals, in the schedule: call A runs its first
part, call B runs its first part, call A runs its second part, call B runs its
second part.  The result is the state after all four steps. -/
def invertM_overlapped (st : InvertStatics α) (mem : Buf α) (invA a invB b : Int) :
    InvertResult α :=
  let st := invertM_scratch st mem a 0
  let st := invertM_scratch st mem b 0
  let resA := invertM_stores st mem invA 0
  invertM_stores resA.statics resA.mem invB 0

end SourceParts

/-- The memory `mem` with a copy of the 16 floats at `src` placed at `dst`. -/
def copy16 {α : Type} (mem : Buf α) (src dst : Int) : Buf α :=
  fun p => if dst ≤ p ∧ p < dst + 16 then mem (src + (p - dst)) else mem p

/-- Entry at buffer position `k` of the translation matrix `T`: the identity
matrix except that positions 12, 13, 14 hold `tx`, `ty`, `tz`. -/
def translationAt {α : Type} [Field α] (tx ty tz : α) (k : Int) : α :=
  if k = 12 then tx else if k = 13 then ty else if k = 14 then tz else identityAt k

/-- A memory for the aliasing of `multiplyMM`: at 0..15 the matrix whose only
non-zero element is a 1 at position 0; at 16..31 the matrix with a 2 at
position 0 (address 16), a 1 at position 4 (address 20) and 0 elsewhere. -/
def memAlias : Buf ℚ := fun p =>
  if p = 0 then 1 else if p = 16 then 2 else if p = 20 then 1 else 0

/-- A memory with the matrix `diag(2,2,2,2)` at 0..15 and the matrix
`diag(4,4,4,4)` at 16..31. -/
def memTwoDiag : Buf ℚ := fun p =>
  if p = 0 ∨ p = 5 ∨ p = 10 ∨ p = 15 then 2
  else if p = 16 ∨ p = 21 ∨ p = 26 ∨ p = 31 then 4 else 0

/-! ## Reads after writes -/

theorem wr_apply {α : Type} (mem : Buf α) (a p : Int) (v : α) :
    wr mem a v p = if p = a then v else mem p := rfl

theorem wr_eq {α : Type} (mem : Buf α) {a p : Int} (v : α) (h : p = a) : wr mem a v p = v := by
  simp [wr, h]

theorem wr_of_ne {α : Type} (mem : Buf α) {a p : Int} (v : α) (h : p ≠ a) :
    wr mem a v p = mem p := by
  simp [wr, h]

section Lemmas

variable {α : Type} [Field α]

/-! ## `multiplyMM` -/

/-- One pass of the outer loop changes only the four floats `r[I(i,0..3)]`. -/
theorem multiplyMM_outer_frame (r lhs rhs : Int) (mem : Buf α) (i p : Int)
    (hp : p < r + 4 * i ∨ r + 4 * i + 4 ≤ p) :
    multiplyMM_outer r lhs rhs mem i p = mem p := by
  simp only [multiplyMM_outer, I]
  rw [wr_of_ne _ _ (by omega), wr_of_ne _ _ (by omega), wr_of_ne _ _ (by omega),
    wr_of_ne _ _ (by omega)]

/-- One pass of the outer loop stores in `r[I(i,k)]` the sum over `j` of
`lhs[I(j,k)] * rhs[I(i,j)]`, all read before the pass writes anything. -/
theorem multiplyMM_outer_val (r lhs rhs : Int) (mem : Buf α) (i k : Int)
    (hk0 : 0 ≤ k) (hk : k < 4) :
    multiplyMM_outer r lhs rhs mem i (r + I i k) =
      mem (lhs + I 0 k) * mem (rhs + I i 0) + mem (lhs + I 1 k) * mem (rhs + I i 1)
        + mem (lhs + I 2 k) * mem (rhs + I i 2) + mem (lhs + I 3 k) * mem (rhs + I i 3) := by
  have hk' : k = 0 ∨ k = 1 ∨ k = 2 ∨ k = 3 := by omega
  rcases hk' with rfl | rfl | rfl | rfl <;>
    simp [multiplyMM_outer, multiplyMM_inner, I, wr_apply]

/-- Frame of `multiplyMM`: it changes nothing outside the 16 floats at `r`. -/
theorem multiplyMM_frame (mem : Buf α) (r lhs rhs : Int) (p : Int)
    (hp : p < r ∨ r + 16 ≤ p) : multiplyMM mem r lhs rhs p = mem p := by
  simp only [multiplyMM, List.foldl]
  rw [multiplyMM_outer_frame _ _ _ _ _ _ (by omega), multiplyMM_outer_frame _ _ _ _ _ _ (by omega),
    multiplyMM_outer_frame _ _ _ _ _ _ (by omega), multiplyMM_outer_frame _ _ _ _ _ _ (by omega)]

/-- With `r` apart from both operands, `multiplyMM` stores in `r[I(i,k)]` the
sum over `j` of `lhs[I(j,k)] * rhs[I(i,j)]`. -/
theorem multiplyMM_val (mem : Buf α) (r lhs rhs : Int)
    (hl : r + 16 ≤ lhs ∨ lhs + 16 ≤ r) (hr : r + 16 ≤ rhs ∨ rhs + 16 ≤ r)
    (i k : Int) (hi0 : 0 ≤ i) (hi : i < 4) (hk0 : 0 ≤ k) (hk : k < 4) :
    multiplyMM mem r lhs rhs (r + I i k) =
      mem (lhs + I 0 k) * mem (rhs + I i 0) + mem (lhs + I 1 k) * mem (rhs + I i 1)
        + mem (lhs + I 2 k) * mem (rhs + I i 2) + mem (lhs + I 3 k) * mem (rhs + I i 3) := by
  have hi' : i = 0 ∨ i = 1 ∨ i = 2 ∨ i = 3 := by omega
  simp only [multiplyMM, List.foldl]
  rcases hi' with rfl | rfl | rfl | rfl
  · rw [multiplyMM_outer_frame _ _ _ _ _ _ (by simp only [I]; omega),
      multiplyMM_outer_frame _ _ _ _ _ _ (by simp only [I]; omega),
      multiplyMM_outer_frame _ _ _ _ _ _ (by simp only [I]; omega),
      multiplyMM_outer_val _ _ _ _ _ _ hk0 hk]
  · rw [multiplyMM_outer_frame _ _ _ _ _ _ (by simp only [I]; omega),
      multiplyMM_outer_frame _ _ _ _ _ _ (by simp only [I]; omega),
      multiplyMM_outer_val _ _ _ _ _ _ hk0 hk]
    simp only [I] at *
    simp (disch := omega) only [multiplyMM_outer_frame]
  · rw [multiplyMM_outer_frame _ _ _ _ _ _ (by simp only [I]; omega),
      multiplyMM_outer_val _ _ _ _ _ _ hk0 hk]
    simp only [I] at *
    simp (disch := omega) only [multiplyMM_outer_frame]
  · rw [multiplyMM_outer_val _ _ _ _ _ _ hk0 hk]
    simp only [I] at *
    simp (disch := omega) only [multiplyMM_outer_frame]

/-! ## `mx4transform` and `multiplyMV` -/

/-- Frame of `multiplyMV`: it changes nothing outside the 4 floats at `r`. -/
theorem multiplyMV_frame (mem : Buf α) (r lhs rhs : Int) (p : Int)
    (hp : p < r ∨ r + 4 ≤ p) : multiplyMV mem r lhs rhs p = mem p := by
  simp only [multiplyMV, mx4transform]
  rw [wr_of_ne _ _ (by omega), wr_of_ne _ _ (by omega), wr_of_ne _ _ (by omega),
    wr_of_ne _ _ (by omega)]

/-- With `r` apart from the matrix, `multiplyMV` stores in `r[i]` the sum over
`j` of `lhs[i + 4*j] * rhs[j]`. -/
theorem multiplyMV_val {β : Type} [Add β] [Mul β] (mem : Buf β) (r lhs rhs : Int)
    (hl : r + 4 ≤ lhs ∨ lhs + 16 ≤ r)
    (i : Int) (hi0 : 0 ≤ i) (hi : i < 4) :
    multiplyMV mem r lhs rhs (r + i) =
      mem (lhs + (i + 4 * 0)) * mem (rhs + 0) + mem (lhs + (i + 4 * 1)) * mem (rhs + 1)
        + mem (lhs + (i + 4 * 2)) * mem (rhs + 2) + mem (lhs + (i + 4 * 3)) * mem (rhs + 3) := by
  have hi' : i = 0 ∨ i = 1 ∨ i = 2 ∨ i = 3 := by omega
  simp only [multiplyMV, mx4transform]
  rcases hi' with rfl | rfl | rfl | rfl <;>
    simp (disch := omega) only [wr_eq, wr_of_ne]

/-! ## `translateM` -/

/-- Frame of `translateM`: it changes nothing but the floats 12..15 of the matrix. -/
theorem translateM_frame {β : Type} [Add β] [Mul β] (mem : Buf β) (tm tmOffset : Int)
    (x y z : β) (p : Int)
    (hp : p < tm + tmOffset + 12 ∨ tm + tmOffset + 16 ≤ p) :
    translateM mem tm tmOffset x y z p = mem p := by
  simp only [translateM, translateM_body, List.foldl]
  simp (disch := omega) only [wr_of_ne]

/-- Effect of `translateM`: it adds `x*m[i] + y*m[4+i] + z*m[8+i]` to `m[12+i]`. -/
theorem translateM_val {β : Type} [Add β] [Mul β] (mem : Buf β) (tm tmOffset : Int)
    (x y z : β) (i : Int)
    (hi0 : 0 ≤ i) (hi : i < 4) :
    translateM mem tm tmOffset x y z (tm + tmOffset + (12 + i)) =
      mem (tm + tmOffset + (12 + i)) + (mem (tm + tmOffset + i) * x
        + mem (tm + tmOffset + (4 + i)) * y + mem (tm + tmOffset + (8 + i)) * z) := by
  have hi' : i = 0 ∨ i = 1 ∨ i = 2 ∨ i = 3 := by omega
  simp only [translateM, translateM_body, List.foldl]
  rcases hi' with rfl | rfl | rfl | rfl <;>
    simp (disch := omega) only [wr_eq, wr_of_ne] <;> ring_nf

end Lemmas

/-! ## Binary32 arithmetic

Facts about the operations of `F32`: rounding yields binary32 values and is
exact on them, and it commutes with negation. -/

/-- Zero has no binary digits. -/
theorem bitLength_zero (fuel : Nat) : bitLength fuel 0 = 0 := by
  cases fuel <;> simp [bitLength]

/-- With enough fuel, `m` is below `2 ^ bitLength fuel m`. -/
theorem lt_two_pow_bitLength (fuel m : Nat) (h : m < 2 ^ fuel) : m < 2 ^ bitLength fuel m := by
  induction fuel generalizing m with
  | zero =>
    have : m = 0 := by simpa using h
    subst this
    simp [bitLength]
  | succ n ih =>
    by_cases h0 : m = 0
    · subst h0; simp [bitLength]
    · have h2 : m / 2 < 2 ^ n := by rw [pow_succ] at h; omega
      have := ih (m / 2) h2
      simp only [bitLength, h0, if_false, pow_succ]
      omega

/-- With enough fuel, a non-zero `m` is at least `2 ^ (bitLength fuel m - 1)`. -/
theorem two_pow_bitLength_le (fuel m : Nat) (h : m < 2 ^ fuel) (h0 : m ≠ 0) :
    2 ^ bitLength fuel m ≤ 2 * m := by
  induction fuel generalizing m with
  | zero =>
    have : m = 0 := by simpa using h
    exact absurd this h0
  | succ n ih =>
    have h2 : m / 2 < 2 ^ n := by rw [pow_succ] at h; omega
    simp only [bitLength, h0, if_false, pow_succ]
    by_cases h1 : m / 2 = 0
    · rw [h1, bitLength_zero]
      simp
      omega
    · have := ih (m / 2) h2 h1
      omega

/-- The number `bitLength m m` is the number `b` of binary digits of `m`:
`2 ^ (b - 1) ≤ m < 2 ^ b`. -/
theorem bitLength_self_eq (m b : Nat) (h1 : m < 2 ^ b) (h2 : 2 ^ b ≤ 2 * m) :
    bitLength m m = b := by
  have hm : m ≠ 0 := by
    rintro rfl
    have : 0 < 2 ^ b := Nat.two_pow_pos b
    omega
  have hb1 := lt_two_pow_bitLength m m (Nat.lt_two_pow m)
  have hb2 := two_pow_bitLength_le m m (Nat.lt_two_pow m) hm
  have a1 : 2 ^ b < 2 ^ (bitLength m m + 1) := by rw [pow_succ]; omega
  have a2 : 2 ^ bitLength m m < 2 ^ (b + 1) := by rw [pow_succ]; omega
  have a3 := (Nat.pow_lt_pow_iff_right (by norm_num : 1 < 2)).mp a1
  have a4 := (Nat.pow_lt_pow_iff_right (by norm_num : 1 < 2)).mp a2
  omega

namespace F32

/-- Rounding zero gives zero. -/
theorem round_zero (s : Bool) (e : Int) : round s 0 e = zero := by simp [round]

/-- Rounding is exact on a binary32 value, however its mantissa is shifted. -/
theorem round_shift (s : Bool) (m : Nat) (e : Int) (k : Nat) (h0 : 0 < m) (h24 : m < 2 ^ 24)
    (he : -149 ≤ e) (he' : e ≤ 104) (hn : 2 ^ 23 ≤ m ∨ e = -149) :
    round s (m * 2 ^ k) (e - k) = fin s m e := by
  have hm : m ≠ 0 := by omega
  have hb1 := lt_two_pow_bitLength m m (Nat.lt_two_pow m)
  have hb2 := two_pow_bitLength_le m m (Nat.lt_two_pow m) hm
  generalize hb : bitLength m m = b at hb1 hb2
  have hb24 : b ≤ 24 := by
    have a1 : 2 ^ b < 2 ^ 25 := by omega
    have := (Nat.pow_lt_pow_iff_right (by norm_num : 1 < 2)).mp a1
    omega
  have hb23 : 2 ^ 23 ≤ m → b = 24 := by
    intro h
    have a1 : 2 ^ 23 < 2 ^ b := by omega
    have := (Nat.pow_lt_pow_iff_right (by norm_num : 1 < 2)).mp a1
    omega
  have hk : 0 < 2 ^ k := Nat.two_pow_pos k
  have hB : bitLength (m * 2 ^ k) (m * 2 ^ k) = b + k := by
    apply bitLength_self_eq
    · rw [pow_add]; exact Nat.mul_lt_mul_of_pos_right hb1 hk
    · rw [pow_add, ← Nat.mul_assoc]; exact Nat.mul_le_mul_right _ hb2
  have hmax : max (e - (k : Int) + ((b + k : Nat) : Int) - 24) (-149) = e := by
    push_cast
    rcases hn with h | h
    · have := hb23 h
      omega
    · omega
  have hmk : m * 2 ^ k ≠ 0 := Nat.mul_ne_zero hm (by omega)
  simp only [round, hB, hmax, if_neg hmk]
  rcases Nat.eq_zero_or_pos k with hk0 | hk0
  · subst hk0
    simp [show ¬ (104 < e) by omega]
  · have hsh : (e - (e - (k : Int))).toNat = k := by omega
    have hhalf : 0 < 2 ^ (k - 1) := Nat.two_pow_pos _
    have hc : ¬ (2 ^ (k - 1) < 0 ∨ 0 = 2 ^ (k - 1) ∧ m % 2 = 1) := by omega
    have h1 : ¬ (e ≤ e - (k : Int)) := by omega
    have h2 : ¬ (m = 2 ^ 24) := by omega
    have h3 : ¬ (104 < e) := by omega
    rw [if_neg h1, hsh, Nat.mul_div_cancel _ hk, Nat.mul_mod_left, if_neg hc, if_neg hm,
      if_neg h2, if_neg h3]

/-- Zero is a binary32 value. -/
theorem isFloat_zero : IsFloat zero := Or.inl ⟨rfl, rfl, rfl⟩

/-- Rounding yields a binary32 value. -/
theorem isFloat_round (s : Bool) (m : Nat) (e : Int) : IsFloat (round s m e) := by
  by_cases hm : m = 0
  · subst hm; rw [round_zero]; exact isFloat_zero
  have hb1 := lt_two_pow_bitLength m m (Nat.lt_two_pow m)
  have hb2 := two_pow_bitLength_le m m (Nat.lt_two_pow m) hm
  simp only [round, if_neg hm]
  generalize bitLength m m = b at hb1 hb2
  rcases le_total (e + (b : Int) - 24) (-149) with h | h
  · rw [max_eq_right h]
    by_cases hle : (-149 : Int) ≤ e
    · rw [if_pos hle, if_neg (by norm_num)]
      obtain ⟨k, hk⟩ : ∃ k : Nat, (e - -149).toNat = k := ⟨_, rfl⟩
      rw [hk]
      have hbk : b + k ≤ 24 := by omega
      have hlt : m * 2 ^ k < 2 ^ 24 := by
        calc m * 2 ^ k < 2 ^ b * 2 ^ k := Nat.mul_lt_mul_of_pos_right hb1 (Nat.two_pow_pos k)
          _ = 2 ^ (b + k) := (pow_add 2 b k).symm
          _ ≤ 2 ^ 24 := Nat.pow_le_pow_right (by norm_num) hbk
      exact Or.inr ⟨Nat.mul_pos (by omega) (Nat.two_pow_pos k), hlt, le_refl _, by norm_num,
        Or.inr rfl⟩
    · rw [if_neg hle]
      obtain ⟨sh, hsh⟩ : ∃ sh : Nat, (-149 - e).toNat = sh := ⟨_, rfl⟩
      rw [hsh]
      have hbs : b ≤ sh + 24 := by omega
      have hq : m / 2 ^ sh < 2 ^ 24 := by
        apply Nat.div_lt_of_lt_mul
        calc m < 2 ^ b := hb1
          _ ≤ 2 ^ (sh + 24) := Nat.pow_le_pow_right (by norm_num) hbs
          _ = 2 ^ sh * 2 ^ 24 := pow_add 2 sh 24
      generalize m / 2 ^ sh = q0 at hq
      split_ifs <;>
        first
        | exact isFloat_zero
        | trivial
        | (refine Or.inr ⟨?_, ?_, ?_, ?_, ?_⟩ <;> omega)
  · rw [max_eq_left h]
    by_cases hle : e + (b : Int) - 24 ≤ e
    · rw [if_pos hle]
      obtain ⟨k, hk⟩ : ∃ k : Nat, (e - (e + (b : Int) - 24)).toNat = k := ⟨_, rfl⟩
      rw [hk]
      have hbk : b + k = 24 := by omega
      have hlt : m * 2 ^ k < 2 ^ 24 := by
        calc m * 2 ^ k < 2 ^ b * 2 ^ k := Nat.mul_lt_mul_of_pos_right hb1 (Nat.two_pow_pos k)
          _ = 2 ^ (b + k) := (pow_add 2 b k).symm
          _ = 2 ^ 24 := by rw [hbk]
      have hge : 2 ^ 24 ≤ 2 * (m * 2 ^ k) := by
        calc 2 ^ 24 = 2 ^ (b + k) := by rw [hbk]
          _ = 2 ^ b * 2 ^ k := pow_add 2 b k
          _ ≤ 2 * m * 2 ^ k := Nat.mul_le_mul_right _ hb2
          _ = 2 * (m * 2 ^ k) := Nat.mul_assoc _ _ _
      generalize m * 2 ^ k = q at hlt hge
      split_ifs <;>
        first
        | trivial
        | (refine Or.inr ⟨?_, ?_, ?_, ?_, ?_⟩ <;> omega)
    · rw [if_neg hle]
      obtain ⟨sh, hsh⟩ : ∃ sh : Nat, (e + (b : Int) - 24 - e).toNat = sh := ⟨_, rfl⟩
      rw [hsh]
      have hbs : b = sh + 24 := by omega
      have hq : m / 2 ^ sh < 2 ^ 24 := by
        apply Nat.div_lt_of_lt_mul
        calc m < 2 ^ b := hb1
          _ = 2 ^ (sh + 24) := by rw [hbs]
          _ = 2 ^ sh * 2 ^ 24 := pow_add 2 sh 24
      have hq2 : 2 ^ 23 ≤ m / 2 ^ sh := by
        rw [Nat.le_div_iff_mul_le (Nat.two_pow_pos sh)]
        have : 2 * (2 ^ 23 * 2 ^ sh) ≤ 2 * m := by
          calc 2 * (2 ^ 23 * 2 ^ sh) = 2 ^ (sh + 24) := by ring
            _ = 2 ^ b := by rw [hbs]
            _ ≤ 2 * m := hb2
        omega
      generalize m / 2 ^ sh = q0 at hq hq2
      split_ifs <;>
        first
        | trivial
        | (refine Or.inr ⟨?_, ?_, ?_, ?_, ?_⟩ <;> omega)

/-- Rounding to nearest, ties to even, commutes with negation. -/
theorem neg_round (s : Bool) (m : Nat) (e : Int) : neg (round s m e) = round (!s) m e := by
  by_cases hm : m = 0
  · subst hm; simp [round_zero, neg, zero]
  have hp : ∀ k : Nat, m * 2 ^ k ≠ 0 := fun k => Nat.mul_ne_zero hm (by positivity)
  simp only [round, if_neg hm]
  split_ifs <;> simp_all [neg, zero]

/-- The float 1. -/
theorem one_eq : (1 : F32) = fin false (2 ^ 23) (-23) := by decide

/-- The negation of a binary32 value is one. -/
theorem isFloat_neg (x : F32) (h : IsFloat x) : IsFloat (-x) := by
  show IsFloat (neg x)
  cases x with
  | nan => trivial
  | inf s => trivial
  | fin s m e =>
    rcases h with ⟨rfl, rfl, rfl⟩ | h
    · exact Or.inl ⟨rfl, rfl, rfl⟩
    · have hm : m ≠ 0 := by have := h.1; omega
      simp only [neg, if_neg hm]
      exact Or.inr h

/-- Every product is a binary32 value. -/
theorem isFloat_mul (a b : F32) : IsFloat (a * b) := by
  show IsFloat (mul a b)
  cases a <;> cases b <;> simp only [mul] <;>
    first
    | trivial
    | exact isFloat_round _ _ _
    | (split_ifs <;> trivial)

/-- Every sum is a binary32 value. -/
theorem isFloat_add (a b : F32) : IsFloat (a + b) := by
  show IsFloat (add a b)
  cases a <;> cases b <;> simp only [add] <;>
    first
    | trivial
    | exact isFloat_round _ _ _
    | (split_ifs <;> trivial)

/-- The product with a negated factor is the negated product. -/
theorem mul_neg_float (a b : F32) : a * -b = -(a * b) := by
  show mul a (neg b) = neg (mul a b)
  cases a with
  | nan => cases b <;> simp [mul, neg]
  | inf s =>
    cases b with
    | nan => rfl
    | inf t => cases s <;> cases t <;> rfl
    | fin t n f =>
      by_cases hn : n = 0
      · subst hn; simp [mul, neg, zero]
      · cases s <;> cases t <;> simp [mul, neg, hn]
  | fin s m e =>
    cases b with
    | nan => rfl
    | inf t =>
      by_cases hm : m = 0
      · subst hm; simp [mul, neg]
      · cases s <;> cases t <;> simp [mul, neg, hm]
    | fin t n f =>
      by_cases hn : n = 0
      · subst hn; simp [mul, neg, zero, round_zero]
      · have hneg : neg (fin t n f) = fin (!t) n f := by simp [neg, hn]
        rw [hneg]
        show round (xor s (!t)) (m * n) (e + f) = neg (round (xor s t) (m * n) (e + f))
        rw [neg_round]
        cases s <;> cases t <;> rfl

/-- Addition is commutative. -/
theorem add_comm_float (a b : F32) : a + b = b + a := by
  show add a b = add b a
  cases a with
  | nan => cases b <;> rfl
  | inf s =>
    cases b with
    | nan => rfl
    | inf t => cases s <;> cases t <;> rfl
    | fin t n f => rfl
  | fin s m e =>
    cases b with
    | nan => rfl
    | inf t => rfl
    | fin t n f =>
      simp only [add]
      rw [min_comm f e, Int.add_comm (if t = true then _ else _)]

/-- Adding zero to a binary32 value is exact. -/
theorem zero_add_float (x : F32) (h : IsFloat x) : 0 + x = x := by
  show add zero x = x
  cases x with
  | nan => rfl
  | inf s => rfl
  | fin s m e =>
    rcases h with ⟨rfl, rfl, rfl⟩ | ⟨h0, h24, he, he', hn⟩
    · decide
    · obtain ⟨k, hk⟩ : ∃ k : Nat, (e - -149).toNat = k := ⟨_, rfl⟩
      have key := round_shift s m e k h0 h24 he he' hn
      rw [show e - (k : Int) = -149 by omega] at key
      have hpos : 0 < m * 2 ^ k := Nat.mul_pos h0 (Nat.two_pow_pos k)
      simp only [add, zero, min_eq_left he, hk]
      cases s
      · simp only [Bool.false_eq_true, if_false, Nat.zero_mul, Int.ofNat_zero, Int.zero_add,
          Int.natAbs_ofNat]
        rw [show decide (((m * 2 ^ k : Nat) : Int) < 0) = false by
          simp only [decide_eq_false_iff_not]; omega]
        exact key
      · simp only [Bool.false_eq_true, if_false, if_true, Nat.zero_mul, Int.ofNat_zero,
          Int.zero_add, Int.natAbs_neg, Int.natAbs_ofNat]
        rw [show decide (-((m * 2 ^ k : Nat) : Int) < 0) = true by
          simp only [decide_eq_true_eq]; omega]
        exact key

/-- Adding zero to a binary32 value is exact. -/
theorem add_zero_float (x : F32) (h : IsFloat x) : x + 0 = x := by
  rw [add_comm_float, zero_add_float x h]

/-- Multiplying a binary32 value by 1 is exact. -/
theorem mul_one_float (x : F32) (h : IsFloat x) : x * 1 = x := by
  rw [one_eq]
  show mul x (fin false (2 ^ 23) (-23)) = x
  cases x with
  | nan => rfl
  | inf s => cases s <;> rfl
  | fin s m e =>
    rcases h with ⟨rfl, rfl, rfl⟩ | ⟨h0, h24, he, he', hn⟩
    · decide
    · have key := round_shift s m e 23 h0 h24 he he' hn
      simp only [mul, Bool.xor_false]
      rw [show e + (-23 : Int) = e - ((23 : Nat) : Int) by omega]
      exact key

/-- Multiplying a binary32 value by 1 is exact. -/
theorem one_mul_float (x : F32) (h : IsFloat x) : 1 * x = x := by
  rw [one_eq]
  show mul (fin false (2 ^ 23) (-23)) x = x
  cases x with
  | nan => rfl
  | inf s => cases s <;> rfl
  | fin s m e =>
    rcases h with ⟨rfl, rfl, rfl⟩ | ⟨h0, h24, he, he', hn⟩
    · decide
    · have key := round_shift s m e 23 h0 h24 he he' hn
      simp only [mul, Bool.false_xor]
      rw [show (-23 : Int) + e = e - ((23 : Nat) : Int) by omega,
        Nat.mul_comm (2 ^ 23) m]
      exact key

/-- Zero times a finite value is zero. -/
theorem zero_mul_finite (x : F32) (h : IsFinite x) : 0 * x = 0 := by
  show mul zero x = zero
  cases x with
  | nan => exact absurd h (fun h => h)
  | inf s => exact absurd h (fun h => h)
  | fin s m e => simp [mul, zero, round_zero]

/-- A finite value times zero is zero. -/
theorem mul_zero_finite (x : F32) (h : IsFinite x) : x * 0 = 0 := by
  show mul x zero = zero
  cases x with
  | nan => exact absurd h (fun h => h)
  | inf s => exact absurd h (fun h => h)
  | fin s m e => simp [mul, zero, round_zero]

/-- The sum `x + -x` is zero for finite `x` and NaN otherwise. -/
theorem add_neg_self_float (x : F32) : x + -x = 0 ∨ x + -x = nan := by
  show add x (neg x) = zero ∨ add x (neg x) = nan
  cases x with
  | nan => right; rfl
  | inf s => right; cases s <;> rfl
  | fin s m e =>
    left
    by_cases hm : m = 0
    · subst hm
      simp [add, neg, zero, round_zero]
    · simp only [neg, if_neg hm, add, min_self, sub_self, Int.toNat_zero, pow_zero, Nat.mul_one]
      cases s <;> simp [round_zero]

/-- The negation of zero is zero. -/
theorem neg_zero_float : -(0 : F32) = 0 := by decide

/-- Rounding the negated integer `z` gives the negated rounding of `z`. -/
theorem round_neg_int (z g : Int) :
    round (decide (-z < 0)) (-z).natAbs g = round (!decide (z < 0)) z.natAbs g := by
  rw [Int.natAbs_neg]
  rcases lt_trichotomy z 0 with h | h | h
  · rw [show decide (-z < 0) = false by simp only [decide_eq_false_iff_not]; omega,
      show decide (z < 0) = true by simp only [decide_eq_true_eq]; omega]
    rfl
  · subst h
    simp [round_zero]
  · rw [show decide (-z < 0) = true by simp only [decide_eq_true_eq]; omega,
      show decide (z < 0) = false by simp only [decide_eq_false_iff_not]; omega]
    rfl

/-- Rounding a sum of two negated integers. -/
theorem round_sum_neg (x y x' y' g : Int) (hx : x' = -x) (hy : y' = -y) :
    round (decide (x' + y' < 0)) (x' + y').natAbs g =
      round (!decide (x + y < 0)) (x + y).natAbs g := by
  subst hx hy
  rw [show -x + -y = -(x + y) by ring]
  exact round_neg_int _ _

/-- The sum of two negated binary32 values is their negated sum. -/
theorem neg_add_neg_float (a b : F32) (ha : IsFloat a) (hb : IsFloat b) : -a + -b = -(a + b) := by
  cases a with
  | nan =>
    show add (neg nan) (neg b) = neg (add nan b)
    cases b with
    | nan => rfl
    | inf t => rfl
    | fin t n f => by_cases hn : n = 0 <;> simp [add, neg, hn, zero]
  | inf s =>
    cases b with
    | nan => rfl
    | inf t => cases s <;> cases t <;> rfl
    | fin t n f =>
      show add (neg (inf s)) (neg (fin t n f)) = neg (add (inf s) (fin t n f))
      by_cases hn : n = 0 <;> simp [add, neg, hn, zero]
  | fin s m e =>
    cases b with
    | nan =>
      show add (neg (fin s m e)) (neg nan) = neg (add (fin s m e) nan)
      by_cases hm : m = 0 <;> simp [add, neg, hm, zero]
    | inf t =>
      show add (neg (fin s m e)) (neg (inf t)) = neg (add (fin s m e) (inf t))
      by_cases hm : m = 0 <;> simp [add, neg, hm, zero]
    | fin t n f =>
      by_cases hm : m = 0
      · have h0 : fin s m e = 0 := by
          rcases ha with ⟨rfl, rfl, rfl⟩ | h
          · rfl
          · exact absurd hm (by have := h.1; omega)
        rw [h0, neg_zero_float, zero_add_float _ (isFloat_neg _ hb), zero_add_float _ hb]
      by_cases hn : n = 0
      · have h0 : fin t n f = 0 := by
          rcases hb with ⟨rfl, rfl, rfl⟩ | h
          · rfl
          · exact absurd hn (by have := h.1; omega)
        rw [h0, neg_zero_float, add_zero_float _ (isFloat_neg _ ha), add_zero_float _ ha]
      have hna : neg (fin s m e) = fin (!s) m e := by simp [neg, hm]
      have hnb : neg (fin t n f) = fin (!t) n f := by simp [neg, hn]
      show add (neg (fin s m e)) (neg (fin t n f)) = neg (add (fin s m e) (fin t n f))
      rw [hna, hnb]
      simp only [add]
      rw [neg_round]
      exact round_sum_neg _ _ _ _ _ (by cases s <;> simp) (by cases t <;> simp)

/-- The sum `S + (0 + (-A + -B + -C)) * 1` with `S = A + B + C`, all sums from
left to right, is zero or NaN when `A`, `B`, `C` are binary32 values. -/
theorem sum_cancel (A B C : F32) (hA : IsFloat A) (hB : IsFloat B) (hC : IsFloat C) :
    A + B + C + (0 + (-A + -B + -C)) * 1 = 0 ∨ A + B + C + (0 + (-A + -B + -C)) * 1 = nan := by
  have hAB : IsFloat (A + B) := isFloat_add A B
  have hS : IsFloat (A + B + C) := isFloat_add _ C
  rw [neg_add_neg_float A B hA hB, neg_add_neg_float (A + B) C hAB hC,
    zero_add_float _ (isFloat_neg _ hS), mul_one_float _ (isFloat_neg _ hS)]
  exact add_neg_self_float _

/-- Zero times any value is zero or NaN. -/
theorem zero_mul_cases (x : F32) : (0 : F32) * x = 0 ∨ (0 : F32) * x = nan := by
  show mul zero x = zero ∨ mul zero x = nan
  cases x with
  | nan => right; rfl
  | inf s => right; rfl
  | fin s m e => left; simp [mul, zero, round_zero]

/-- Zero times `-x` is zero times `x`. -/
theorem zero_mul_neg (x : F32) : (0 : F32) * -x = 0 * x := by
  rw [mul_neg_float]
  rcases zero_mul_cases x with h | h <;> rw [h] <;> rfl

set_option maxRecDepth 100000 in
/-- The fourth component: `0*x + 0*y + 0*z + (1 + (0*-x + 0*-y + 0*-z)) * 1`
is one or NaN. -/
theorem last_component (x y z : F32) :
    0 * x + 0 * y + 0 * z + (1 + (0 * -x + 0 * -y + 0 * -z)) * 1 = 1 ∨
      0 * x + 0 * y + 0 * z + (1 + (0 * -x + 0 * -y + 0 * -z)) * 1 = nan := by
  rw [zero_mul_neg, zero_mul_neg, zero_mul_neg]
  rcases zero_mul_cases x with hx | hx <;> rcases zero_mul_cases y with hy | hy <;>
    rcases zero_mul_cases z with hz | hz <;> rw [hx, hy, hz] <;> decide

end F32

/-! ## `invertM` -/

section InvertLemmas

variable {α : Type} [Field α]

/-- Laplace expansion of a 4x4 determinant along its first row. -/
theorem det_fin_four_expand {R : Type} [CommRing R] (A : Matrix (Fin 4) (Fin 4) R) :
    A.det =
      A 0 0 * (A 1 1 * (A 2 2 * A 3 3 - A 2 3 * A 3 2) - A 1 2 * (A 2 1 * A 3 3 - A 2 3 * A 3 1)
          + A 1 3 * (A 2 1 * A 3 2 - A 2 2 * A 3 1))
      - A 0 1 * (A 1 0 * (A 2 2 * A 3 3 - A 2 3 * A 3 2) - A 1 2 * (A 2 0 * A 3 3 - A 2 3 * A 3 0)
          + A 1 3 * (A 2 0 * A 3 2 - A 2 2 * A 3 0))
      + A 0 2 * (A 1 0 * (A 2 1 * A 3 3 - A 2 3 * A 3 1) - A 1 1 * (A 2 0 * A 3 3 - A 2 3 * A 3 0)
          + A 1 3 * (A 2 0 * A 3 1 - A 2 1 * A 3 0))
      - A 0 3 * (A 1 0 * (A 2 1 * A 3 2 - A 2 2 * A 3 1) - A 1 1 * (A 2 0 * A 3 2 - A 2 2 * A 3 0)
          + A 1 2 * (A 2 0 * A 3 1 - A 2 1 * A 3 0)) := by
  rw [Matrix.det_succ_row_zero]
  simp only [Fin.sum_univ_succ, Matrix.det_fin_three, Matrix.submatrix_apply]
  have e1 : Fin.succ (2 : Fin 3) = (3 : Fin 4) := rfl
  have e2 : Fin.castSucc (2 : Fin 3) = (2 : Fin 4) := rfl
  have e3 : ((3 : Fin 4) : ℕ) = 3 := rfl
  simp [Fin.succAbove, Fin.lt_def, e1, e2, e3]
  ring

/-- The `det` that `invertM` computes is the determinant of the source matrix. -/
theorem invertM_scratch_det (st : InvertStatics α) (mem : Buf α) (m mOffset : Int) :
    (invertM_scratch st mem m mOffset).det = Matrix.det (toMatrix mem (m + mOffset)) := by
  have e3 : ((3 : Fin 4) : ℕ) = 3 := rfl
  rw [det_fin_four_expand]
  simp [invertM_scratch, wr_apply, toMatrix, I, e3]
  ring

/-- The scratch `dstMatrix` is the adjugate: the product computed by
`multiplyMM(tmp, m, dstMatrix)` is `det` on the diagonal and 0 off it. -/
theorem invertM_scratch_adj_list (st : InvertStatics α) (mem : Buf α) (m mOffset : Int) :
    ∀ i ∈ ([0, 1, 2, 3] : List Int), ∀ c ∈ ([0, 1, 2, 3] : List Int),
    mem (m + mOffset + I 0 c) * (invertM_scratch st mem m mOffset).dstMatrix (I i 0)
      + mem (m + mOffset + I 1 c) * (invertM_scratch st mem m mOffset).dstMatrix (I i 1)
      + mem (m + mOffset + I 2 c) * (invertM_scratch st mem m mOffset).dstMatrix (I i 2)
      + mem (m + mOffset + I 3 c) * (invertM_scratch st mem m mOffset).dstMatrix (I i 3)
      = if i = c then (invertM_scratch st mem m mOffset).det else 0 := by
  simp only [List.forall_mem_cons, List.not_mem_nil, false_implies, implies_true, and_true,
    invertM_scratch, wr_apply, I, Int.reduceMul, Int.reduceAdd, Int.reduceEq, reduceIte]
  refine ⟨⟨?_, ?_, ?_, ?_⟩, ⟨?_, ?_, ?_, ?_⟩, ⟨?_, ?_, ?_, ?_⟩,
    ⟨?_, ?_, ?_, ?_⟩⟩ <;>
    first
    | trivial
    | ring

theorem invertM_scratch_adj (st : InvertStatics α) (mem : Buf α) (m mOffset : Int) (i c : Int)
    (hi0 : 0 ≤ i) (hi : i < 4) (hc0 : 0 ≤ c) (hc : c < 4) :
    mem (m + mOffset + I 0 c) * (invertM_scratch st mem m mOffset).dstMatrix (I i 0)
      + mem (m + mOffset + I 1 c) * (invertM_scratch st mem m mOffset).dstMatrix (I i 1)
      + mem (m + mOffset + I 2 c) * (invertM_scratch st mem m mOffset).dstMatrix (I i 2)
      + mem (m + mOffset + I 3 c) * (invertM_scratch st mem m mOffset).dstMatrix (I i 3)
      = if i = c then (invertM_scratch st mem m mOffset).det else 0 := by
  apply invertM_scratch_adj_list <;> simp only [List.mem_cons, List.mem_singleton] <;> omega

variable [DecidableEq α]

theorem invertM_ret_false_iff (st : InvertStatics α) (mem : Buf α)
    (mInv mInvOffset m mOffset : Int) :
    (invertM st mem mInv mInvOffset m mOffset).ret = false ↔
      (invertM_scratch st mem m mOffset).det = 0 := by
  simp only [invertM]
  split_ifs with h <;> simp [h]

/-- A failing call leaves the memory as it was. -/
theorem invertM_mem_of_det_zero (st : InvertStatics α) (mem : Buf α)
    (mInv mInvOffset m mOffset : Int) (h : (invertM_scratch st mem m mOffset).det = 0) :
    (invertM st mem mInv mInvOffset m mOffset).mem = mem := by
  simp only [invertM, h, if_true]

/-- No call changes anything outside the 16 floats at `mInv + mInvOffset`. -/
theorem invertM_frame (st : InvertStatics α) (mem : Buf α) (mInv mInvOffset m mOffset : Int)
    (p : Int) (hp : p < mInv + mInvOffset ∨ mInv + mInvOffset + 16 ≤ p) :
    (invertM st mem mInv mInvOffset m mOffset).mem p = mem p := by
  simp only [invertM]
  split_ifs with h
  · rfl
  · simp (disch := omega) only [wr_of_ne]

/-- A successful call stores `dstMatrix[k] * (1 / det)` at element `k` of the destination. -/
theorem invertM_val (st : InvertStatics α) (mem : Buf α) (mInv mInvOffset m mOffset : Int)
    (h : (invertM_scratch st mem m mOffset).det ≠ 0) (k : Int) (hk0 : 0 ≤ k) (hk : k < 16) :
    (invertM st mem mInv mInvOffset m mOffset).mem (mInv + mInvOffset + k) =
      (invertM_scratch st mem m mOffset).dstMatrix k
        * (1 / (invertM_scratch st mem m mOffset).det) := by
  simp only [invertM, if_neg h]
  interval_cases k <;> simp (disch := omega) only [wr_eq, wr_of_ne]

end InvertLemmas

section InvertAnyArithmetic

variable {α : Type} [Zero α] [One α] [Add α] [Sub α] [Mul α] [Div α] [DecidableEq α]

/-- In every arithmetic, `invertM` returns false exactly when the `det` it has
computed and left in its static variable is zero. -/
theorem invertM_ret_false_iff_statics_det (st : InvertStatics α) (mem : Buf α)
    (mInv mInvOffset m mOffset : Int) :
    (invertM st mem mInv mInvOffset m mOffset).ret = false ↔
      (invertM st mem mInv mInvOffset m mOffset).statics.det = 0 := by
  simp only [invertM]
  split_ifs with h <;> simp [h]

end InvertAnyArithmetic

/-! ## Claims about `invertM` -/

section InvertClaims

variable {α : Type} [Field α] [DecidableEq α]

/-- Position `k` of the identity matrix, by row `i = k / 4` and column `c = k % 4`. -/
theorem identityAt_I {β : Type} [Field β] (i c : Int) (hi0 : 0 ≤ i) (hi : i < 4)
    (hc0 : 0 ≤ c) (hc : c < 4) :
    (identityAt (I i c) : β) = if i = c then 1 else 0 := by
  have hi' : i = 0 ∨ i = 1 ∨ i = 2 ∨ i = 3 := by omega
  have hc' : c = 0 ∨ c = 1 ∨ c = 2 ∨ c = 3 := by omega
  rcases hi' with rfl | rfl | rfl | rfl <;> rcases hc' with rfl | rfl | rfl | rfl <;>
    simp [identityAt, I]

/-- Entry `(i, c)` of the product of a matrix with the inverse `invertM` stored. -/
theorem invertM_multiplyMM_entry (st : InvertStatics α) (mem : Buf α) (inv M tmp : Int)
    (hMi : M + 16 ≤ inv ∨ inv + 16 ≤ M) (htM : tmp + 16 ≤ M ∨ M + 16 ≤ tmp)
    (hti : tmp + 16 ≤ inv ∨ inv + 16 ≤ tmp)
    (hdet : (invertM_scratch st mem M 0).det ≠ 0)
    (i c : Int) (hi0 : 0 ≤ i) (hi : i < 4) (hc0 : 0 ≤ c) (hc : c < 4) :
    multiplyMM (invertM st mem inv 0 M 0).mem tmp M inv (tmp + I i c) =
      if i = c then 1 else 0 := by
  rw [multiplyMM_val _ _ _ _ htM hti i c hi0 hi hc0 hc]
  have hM : ∀ j : Int, 0 ≤ j → j < 4 →
      (invertM st mem inv 0 M 0).mem (M + I j c) = mem (M + 0 + I j c) := by
    intro j hj0 hj
    rw [invertM_frame _ _ _ _ _ _ _ (by simp only [I]; omega), add_zero]
  have hI : ∀ j : Int, 0 ≤ j → j < 4 →
      (invertM st mem inv 0 M 0).mem (inv + I i j) =
        (invertM_scratch st mem M 0).dstMatrix (I i j)
          * (1 / (invertM_scratch st mem M 0).det) := by
    intro j hj0 hj
    have h := invertM_val st mem inv 0 M 0 hdet (I i j) (by simp only [I]; omega)
      (by simp only [I]; omega)
    rwa [add_zero] at h
  rw [hM 0 (by norm_num) (by norm_num), hM 1 (by norm_num) (by norm_num),
    hM 2 (by norm_num) (by norm_num), hM 3 (by norm_num) (by norm_num),
    hI 0 (by norm_num) (by norm_num), hI 1 (by norm_num) (by norm_num),
    hI 2 (by norm_num) (by norm_num), hI 3 (by norm_num) (by norm_num)]
  have hadj := invertM_scratch_adj st mem M 0 i c hi0 hi hc0 hc
  have hw : (invertM_scratch st mem M 0).det * (1 / (invertM_scratch st mem M 0).det) = 1 :=
    mul_one_div_cancel hdet
  generalize (1 / (invertM_scratch st mem M 0).det) = w at hw ⊢
  split_ifs at hadj ⊢ with hic
  · linear_combination w * hadj + hw
  · linear_combination w * hadj

/-- C1 (amended): in exact arithmetic (the source run over a field), for a
matrix `M` of non-zero determinant, with `inv`, `M` and `tmp` three separate
16-float buffers, `invertM(inv, 0, M, 0)` returns true and
`multiplyMM(tmp, M, inv)` then leaves in `tmp` the identity matrix: 1 at
positions 0, 5, 10, 15 and 0 at the other positions.  In binary32, for every
content of the memory, `invertM(inv, 0, M, 0)` returns true exactly when the
`det` it has computed is not zero. -/
theorem invertM_round_trip (st : InvertStatics α) (mem : Buf α) (inv M tmp : Int)
    (hMi : M + 16 ≤ inv ∨ inv + 16 ≤ M) (htM : tmp + 16 ≤ M ∨ M + 16 ≤ tmp)
    (hti : tmp + 16 ≤ inv ∨ inv + 16 ≤ tmp)
    (hdet : Matrix.det (toMatrix mem M) ≠ 0) (k : Int) (hk0 : 0 ≤ k) (hk : k < 16) :
    (invertM st mem inv 0 M 0).ret = true ∧
      multiplyMM (invertM st mem inv 0 M 0).mem tmp M inv (tmp + k) = identityAt k ∧
      ∀ (st32 : InvertStatics F32) (mem32 : Buf F32),
        (invertM st32 mem32 inv 0 M 0).ret = true ↔
          (invertM st32 mem32 inv 0 M 0).statics.det ≠ 0 := by
  have hd : (invertM_scratch st mem M 0).det ≠ 0 := by
    rw [invertM_scratch_det, add_zero]; exact hdet
  refine ⟨?_, ?_, ?_⟩
  · have h := invertM_ret_false_iff st mem inv 0 M 0
    cases hret : (invertM st mem inv 0 M 0).ret
    · exact absurd (h.mp hret) hd
    · rfl
  · have hk' : k = I (k / 4) (k % 4) := by simp only [I]; omega
    rw [hk', invertM_multiplyMM_entry st mem inv M tmp hMi htM hti hd (k / 4) (k % 4)
      (by omega) (by omega) (by omega) (by omega),
      identityAt_I (k / 4) (k % 4) (by omega) (by omega) (by omega) (by omega)]
  · intro st32 mem32
    rw [Ne, ← invertM_ret_false_iff_statics_det st32 mem32 inv 0 M 0]
    cases (invertM st32 mem32 inv 0 M 0).ret <;> simp

/-- Witness for C1 (amended): the rational matrix `diag(2,2,2,2)` at address 0,
inverted into address 16 and multiplied into address 32. -/
theorem invertM_round_trip_witness :
    (invertM statics0 memDiag2 16 0 0 0).ret = true ∧
      multiplyMM (invertM statics0 memDiag2 16 0 0 0).mem 32 0 16 (32 + 5) = 1 := by
  have hdet : Matrix.det (toMatrix memDiag2 0) ≠ 0 := by
    have e3 : ((3 : Fin 4) : ℕ) = 3 := rfl
    rw [det_fin_four_expand]
    simp [toMatrix, I, memDiag2, e3]
  have h := invertM_round_trip statics0 memDiag2 16 0 32 (by norm_num) (by norm_num)
    (by norm_num) hdet 5 (by norm_num) (by norm_num)
  exact ⟨h.1, by simpa [identityAt] using h.2.1⟩

end InvertClaims

section InvertClaims2

variable {α : Type} [Field α] [DecidableEq α]

/-- C3 (failure atomicity): whenever `invertM` returns false, every float of
memory, so every element of the destination and of the source buffer, holds
the value it held before the call. -/
theorem invertM_failure_atomic (st : InvertStatics α) (mem : Buf α)
    (mInv mInvOffset m mOffset : Int)
    (h : (invertM st mem mInv mInvOffset m mOffset).ret = false) (p : Int) :
    (invertM st mem mInv mInvOffset m mOffset).mem p = mem p := by
  rw [invertM_mem_of_det_zero st mem mInv mInvOffset m mOffset
    ((invertM_ret_false_iff st mem mInv mInvOffset m mOffset).mp h)]

/-- Witness for C3: the matrix with elements 1..16 is singular; inverting it
in place returns false and leaves element 5 at its value 6. -/
theorem invertM_failure_atomic_witness :
    (invertM statics0 memCount 0 0 0 0).ret = false ∧
      (invertM statics0 memCount 0 0 0 0).mem 5 = 6 := by
  have hret : (invertM statics0 memCount 0 0 0 0).ret = false := by
    rw [invertM_ret_false_iff]
    simp only [invertM_scratch, wr_apply, memCount, statics0]
    norm_num
  refine ⟨hret, ?_⟩
  rw [invertM_failure_atomic statics0 memCount 0 0 0 0 hret 5]
  simp only [memCount]
  norm_num

end InvertClaims2

/-! ## Claims about `multiplyMM`, `multiplyMV` and `IDENTITY` -/

section ProductClaims

variable {α : Type} [Field α]

/-- Counterexample to C4 as stated.  With `lhs` (at 0) having its only 1 at
row 0, column 1 and `rhs` (at 16) its only 1 at row 1, column 1 of the layout
`j + 4*i`, the product `lhs * rhs` has a 1 at row 0, column 1, but `multiplyMM`
stores 0 at position `1 + 4*0` of `r` (at 32). -/
theorem multiplyMM_row_major_counterexample :
    multiplyMM memUnits 32 0 16 (32 + I 0 1) = 0 ∧
      (Finset.sum (Finset.range 4) fun k => memUnits (0 + I 0 k) * memUnits (16 + I k 1)) = 1 := by
  constructor
  · rw [multiplyMM_val _ _ _ _ (by norm_num) (by norm_num) 0 1 (by norm_num) (by norm_num)
      (by norm_num) (by norm_num)]
    simp [memUnits, I]
  · simp [Finset.sum_range_succ, memUnits, I]

/-- C4 (amended): with `r` a separate buffer, the value `multiplyMM` writes at
position `j + 4*i` of `r` is the sum over `k` of `rhs[k + 4*i] * lhs[j + 4*k]`.
Reading (row `i`, column `j`) at `j + 4*i` this is `dst = rhs * lhs`; reading
(row `i`, column `j`) at `i + 4*j` (second part) it is `dst = lhs * rhs`. -/
theorem multiplyMM_product (mem : Buf α) (r lhs rhs : Int)
    (hl : r + 16 ≤ lhs ∨ lhs + 16 ≤ r) (hr : r + 16 ≤ rhs ∨ rhs + 16 ≤ r)
    (i j : Int) (hi0 : 0 ≤ i) (hi : i < 4) (hj0 : 0 ≤ j) (hj : j < 4) :
    multiplyMM mem r lhs rhs (r + I i j) =
        (Finset.sum (Finset.range 4) fun k => mem (rhs + I i k) * mem (lhs + I k j)) ∧
      multiplyMM mem r lhs rhs (r + (i + 4 * j)) =
        (Finset.sum (Finset.range 4) fun k =>
          mem (lhs + (i + 4 * k)) * mem (rhs + (k + 4 * j))) := by
  constructor
  · rw [multiplyMM_val _ _ _ _ hl hr i j hi0 hi hj0 hj]
    simp [Finset.sum_range_succ]
    ring
  · have h := multiplyMM_val mem r lhs rhs hl hr j i hj0 hj hi0 hi
    simp only [I] at h
    rw [h]
    simp [Finset.sum_range_succ]

/-- Witness for C4 (amended), on the memory of the counterexample. -/
theorem multiplyMM_product_witness :
    multiplyMM memUnits 32 0 16 (32 + I 0 1) =
        (Finset.sum (Finset.range 4) fun k => memUnits (16 + I 0 k) * memUnits (0 + I k 1)) ∧
      multiplyMM memUnits 32 0 16 (32 + (0 + 4 * 1)) =
        (Finset.sum (Finset.range 4) fun k =>
          memUnits (0 + (0 + 4 * k)) * memUnits (16 + (k + 4 * 1))) :=
  multiplyMM_product memUnits 32 0 16 (by norm_num) (by norm_num) 0 1 (by norm_num) (by norm_num)
    (by norm_num) (by norm_num)

/-- C5 (identity law): with the identity matrix stored at `Id` and `dst` a
separate buffer, `multiplyMM(dst, M, Id)` and `multiplyMM(dst, Id, M)` both
leave in `dst` the 16 elements of `M`. -/
theorem multiplyMM_identity (mem : Buf α) (dst M Id : Int)
    (hM : dst + 16 ≤ M ∨ M + 16 ≤ dst) (hId : dst + 16 ≤ Id ∨ Id + 16 ≤ dst)
    (hI : ∀ k : Int, 0 ≤ k → k < 16 → mem (Id + k) = identityAt k)
    (k : Int) (hk0 : 0 ≤ k) (hk : k < 16) :
    multiplyMM mem dst M Id (dst + k) = mem (M + k) ∧
      multiplyMM mem dst Id M (dst + k) = mem (M + k) := by
  have hI' : ∀ i c : Int, 0 ≤ i → i < 4 → 0 ≤ c → c < 4 →
      mem (Id + I i c) = if i = c then 1 else 0 := by
    intro i c hi0 hi hc0 hc
    rw [hI (I i c) (by simp only [I]; omega) (by simp only [I]; omega),
      identityAt_I i c hi0 hi hc0 hc]
  have hk' : k = I (k / 4) (k % 4) := by simp only [I]; omega
  have hi0 : 0 ≤ k / 4 := by omega
  have hi : k / 4 < 4 := by omega
  have hc0 : 0 ≤ k % 4 := by omega
  have hc : k % 4 < 4 := by omega
  generalize k / 4 = i at hk' hi0 hi
  generalize k % 4 = c at hk' hc0 hc
  subst hk'
  have hi' : i = 0 ∨ i = 1 ∨ i = 2 ∨ i = 3 := by omega
  have hc' : c = 0 ∨ c = 1 ∨ c = 2 ∨ c = 3 := by omega
  constructor
  · rw [multiplyMM_val _ _ _ _ hM hId i c hi0 hi hc0 hc,
      hI' i 0 hi0 hi (by norm_num) (by norm_num), hI' i 1 hi0 hi (by norm_num) (by norm_num),
      hI' i 2 hi0 hi (by norm_num) (by norm_num), hI' i 3 hi0 hi (by norm_num) (by norm_num)]
    rcases hi' with rfl | rfl | rfl | rfl <;> simp
  · rw [multiplyMM_val _ _ _ _ hId hM i c hi0 hi hc0 hc,
      hI' 0 c (by norm_num) (by norm_num) hc0 hc, hI' 1 c (by norm_num) (by norm_num) hc0 hc,
      hI' 2 c (by norm_num) (by norm_num) hc0 hc, hI' 3 c (by norm_num) (by norm_num) hc0 hc]
    rcases hc' with rfl | rfl | rfl | rfl <;> simp [I]

end ProductClaims

section ProductClaims2

variable {α : Type} [Field α]

/-- Witness for C5: the matrix with elements 1..16 at address 0, the identity
at address 16, the product stored at address 32. -/
theorem multiplyMM_identity_witness :
    multiplyMM memCountId 32 0 16 (32 + 7) = 8 ∧ multiplyMM memCountId 32 16 0 (32 + 7) = 8 := by
  have hI : ∀ k : Int, 0 ≤ k → k < 16 → memCountId (16 + k) = identityAt k := by
    intro k hk0 hk
    interval_cases k <;> simp [memCountId, identityAt]
  have h := multiplyMM_identity memCountId 32 0 16 (by norm_num) (by norm_num) hI 7
    (by norm_num) (by norm_num)
  have e : memCountId (0 + 7) = 8 := by
    simp only [memCountId]
    norm_num
  rw [e] at h
  exact h

/-- Counterexample to C6 as stated.  With the matrix (at 0) having its only 1
at row 0, column 1 of the layout `j + 4*i` and the vector (at 16) `(0,1,0,0)`,
the product `matrix * vector` has first component 1, but `multiplyMV` stores 0
in `r[0]` (at 20). -/
theorem multiplyMV_row_major_counterexample :
    multiplyMV memUnitVec 20 0 16 (20 + 0) = 0 ∧
      (Finset.sum (Finset.range 4) fun j => memUnitVec (0 + I 0 j) * memUnitVec (16 + j)) = 1 := by
  constructor
  · rw [multiplyMV_val _ _ _ _ (by norm_num) 0 (by norm_num) (by norm_num)]
    simp [memUnitVec]
  · simp [Finset.sum_range_succ, memUnitVec, I]

/-- C6 (amended): with `r` apart from the matrix, the value `multiplyMV` writes
to `r[i]` is the sum over `j` of `matrix[i + 4*j] * v[j]`.  Reading (row `i`,
column `j`) at `j + 4*i` this is the sum of `matrix(j,i) * v[j]`, the product
of the transposed matrix with `v`; reading (row `i`, column `j`) at `i + 4*j`
it is `matrix * v`. -/
theorem multiplyMV_product (mem : Buf α) (r lhs rhs : Int)
    (hl : r + 4 ≤ lhs ∨ lhs + 16 ≤ r) (i : Int) (hi0 : 0 ≤ i) (hi : i < 4) :
    multiplyMV mem r lhs rhs (r + i) =
      (Finset.sum (Finset.range 4) fun j => mem (lhs + I j i) * mem (rhs + j)) := by
  rw [multiplyMV_val _ _ _ _ hl i hi0 hi]
  simp [Finset.sum_range_succ, I]

/-- Witness for C6 (amended), on the memory of the counterexample. -/
theorem multiplyMV_product_witness :
    multiplyMV memUnitVec 20 0 16 (20 + 0) =
      (Finset.sum (Finset.range 4) fun j => memUnitVec (0 + I j 0) * memUnitVec (16 + j)) :=
  multiplyMV_product memUnitVec 20 0 16 (by norm_num) 0 (by norm_num) (by norm_num)

/-- C7, the code at a failing input: on a buffer holding 7 everywhere,
`IDENTITY` leaves 7 at positions 12, 13 and 14; the macro assigns only the
positions 0..11 and 15. -/
theorem IDENTITY_leaves_12_13_14 :
    IDENTITY memSevens 0 12 = 7 ∧ IDENTITY memSevens 0 13 = 7 ∧ IDENTITY memSevens 0 14 = 7 ∧
      IDENTITY memSevens 0 0 = 1 ∧ IDENTITY memSevens 0 5 = 1 ∧ IDENTITY memSevens 0 10 = 1 ∧
      IDENTITY memSevens 0 15 = 1 ∧ IDENTITY memSevens 0 1 = 0 ∧
      IDENTITY memSevens 0 11 = 0 := by
  simp [IDENTITY, wr_apply, memSevens]

/-- What `IDENTITY` does on every buffer: positions 0, 5, 10, 15 become 1,
positions 1, 2, 3, 4, 6, 7, 8, 9, 11 become 0, and every other float, the
positions 12, 13, 14 included, keeps its value. -/
theorem IDENTITY_apply (mem : Buf α) (m k : Int) :
    IDENTITY mem m (m + k) =
      if k = 0 ∨ k = 5 ∨ k = 10 ∨ k = 15 then 1
      else if k = 1 ∨ k = 2 ∨ k = 3 ∨ k = 4 ∨ k = 6 ∨ k = 7 ∨ k = 8 ∨ k = 9 ∨ k = 11
      then 0
      else mem (m + k) := by
  by_cases h : 0 ≤ k ∧ k < 16
  · obtain ⟨h0, h1⟩ := h
    interval_cases k <;> simp [IDENTITY, wr_apply]
  · rw [if_neg (by omega), if_neg (by omega)]
    simp only [IDENTITY]
    simp (disch := omega) only [wr_of_ne]

end ProductClaims2

/-! ## Claims about `translateM`, `setLookAtM` and `rotateM` -/

section TransformClaims

variable {α : Type} [Field α]

theorem storeVec4_frame {β : Type} (mem : Buf β) (v : Int) (x y z w : β) (p : Int)
    (hp : p < v ∨ v + 4 ≤ p) : storeVec4 mem v x y z w p = mem p := by
  simp only [storeVec4]
  simp (disch := omega) only [wr_of_ne]

theorem storeVec4_val {β : Type} (mem : Buf β) (v : Int) (x y z w : β) :
    storeVec4 mem v x y z w (v + 0) = x ∧ storeVec4 mem v x y z w (v + 1) = y ∧
      storeVec4 mem v x y z w (v + 2) = z ∧ storeVec4 mem v x y z w (v + 3) = w := by
  simp only [storeVec4]
  refine ⟨?_, ?_, ?_, ?_⟩ <;> simp (disch := omega) only [wr_eq, wr_of_ne]

/-- Transforming the origin `(0,0,0,1)` reads off the floats 12..15 of the matrix. -/
theorem multiplyMV_origin (mem : Buf α) (r lhs rhs : Int) (hl : r + 4 ≤ lhs ∨ lhs + 16 ≤ r)
    (h0 : mem (rhs + 0) = 0) (h1 : mem (rhs + 1) = 0) (h2 : mem (rhs + 2) = 0)
    (h3 : mem (rhs + 3) = 1) (i : Int) (hi0 : 0 ≤ i) (hi : i < 4) :
    multiplyMV mem r lhs rhs (r + i) = mem (lhs + (12 + i)) := by
  rw [multiplyMV_val _ _ _ _ hl i hi0 hi, h0, h1, h2, h3]
  have e : lhs + (i + 4 * 3) = lhs + (12 + i) := by omega
  rw [e]
  ring

/-- C8 (translate, then transform the origin): with the vector buffer `v` and
the result buffer `r` apart from the matrix `M`, `multiplyMV` applied to the
matrix left by `translateM(M, 0, tx, ty, tz)` and the vector `(0,0,0,1)` gives
the same 4-vector as `multiplyMV` applied to the original `M` and
`(tx, ty, tz, 1)`; when `M` is the identity matrix the result is
`(tx, ty, tz, 1)`. -/
theorem translateM_multiplyMV_origin (mem : Buf α) (M v r : Int) (tx ty tz : α)
    (hv : v + 4 ≤ M ∨ M + 16 ≤ v) (hr : r + 4 ≤ M ∨ M + 16 ≤ r) :
    (∀ i : Int, 0 ≤ i → i < 4 →
      multiplyMV (translateM (storeVec4 mem v 0 0 0 1) M 0 tx ty tz) r M v (r + i) =
        multiplyMV (storeVec4 mem v tx ty tz 1) r M v (r + i)) ∧
    ((∀ k : Int, 0 ≤ k → k < 16 → mem (M + k) = identityAt k) →
      multiplyMV (translateM (storeVec4 mem v 0 0 0 1) M 0 tx ty tz) r M v (r + 0) = tx ∧
      multiplyMV (translateM (storeVec4 mem v 0 0 0 1) M 0 tx ty tz) r M v (r + 1) = ty ∧
      multiplyMV (translateM (storeVec4 mem v 0 0 0 1) M 0 tx ty tz) r M v (r + 2) = tz ∧
      multiplyMV (translateM (storeVec4 mem v 0 0 0 1) M 0 tx ty tz) r M v (r + 3) = 1) := by
  obtain ⟨s0, s1, s2, s3⟩ := storeVec4_val mem v 0 0 0 1
  obtain ⟨t0, t1, t2, t3⟩ := storeVec4_val mem v tx ty tz 1
  -- the value left in `r[i]` by the translated matrix and the origin
  have key : ∀ i : Int, 0 ≤ i → i < 4 →
      multiplyMV (translateM (storeVec4 mem v 0 0 0 1) M 0 tx ty tz) r M v (r + i) =
        mem (M + (12 + i)) + (mem (M + i) * tx + mem (M + (4 + i)) * ty
          + mem (M + (8 + i)) * tz) := by
    intro i hi0 hi
    rw [multiplyMV_origin _ _ _ _ hr
      (by rw [translateM_frame _ _ _ _ _ _ _ (by omega)]; exact s0)
      (by rw [translateM_frame _ _ _ _ _ _ _ (by omega)]; exact s1)
      (by rw [translateM_frame _ _ _ _ _ _ _ (by omega)]; exact s2)
      (by rw [translateM_frame _ _ _ _ _ _ _ (by omega)]; exact s3) i hi0 hi]
    have h := translateM_val (storeVec4 mem v 0 0 0 1) M 0 tx ty tz i hi0 hi
    simp only [add_zero] at h
    rw [h, storeVec4_frame _ _ _ _ _ _ _ (by omega), storeVec4_frame _ _ _ _ _ _ _ (by omega),
      storeVec4_frame _ _ _ _ _ _ _ (by omega), storeVec4_frame _ _ _ _ _ _ _ (by omega)]
  constructor
  · intro i hi0 hi
    rw [key i hi0 hi, multiplyMV_val _ _ _ _ hr i hi0 hi, t0, t1, t2, t3,
      storeVec4_frame _ _ _ _ _ _ _ (by omega), storeVec4_frame _ _ _ _ _ _ _ (by omega),
      storeVec4_frame _ _ _ _ _ _ _ (by omega), storeVec4_frame _ _ _ _ _ _ _ (by omega)]
    have e0 : M + (i + 4 * 0) = M + i := by omega
    have e1 : M + (i + 4 * 1) = M + (4 + i) := by omega
    have e2 : M + (i + 4 * 2) = M + (8 + i) := by omega
    have e3 : M + (i + 4 * 3) = M + (12 + i) := by omega
    rw [e0, e1, e2, e3]
    ring
  · intro hId
    have hid : ∀ k : Int, 0 ≤ k → k < 16 → mem (M + k) = identityAt k := hId
    refine ⟨?_, ?_, ?_, ?_⟩
    · rw [key 0 (by norm_num) (by norm_num), hid _ (by norm_num) (by norm_num),
        hid _ (by norm_num) (by norm_num), hid _ (by norm_num) (by norm_num),
        hid _ (by norm_num) (by norm_num)]
      simp [identityAt]
    · rw [key 1 (by norm_num) (by norm_num), hid _ (by norm_num) (by norm_num),
        hid _ (by norm_num) (by norm_num), hid _ (by norm_num) (by norm_num),
        hid _ (by norm_num) (by norm_num)]
      simp [identityAt]
    · rw [key 2 (by norm_num) (by norm_num), hid _ (by norm_num) (by norm_num),
        hid _ (by norm_num) (by norm_num), hid _ (by norm_num) (by norm_num),
        hid _ (by norm_num) (by norm_num)]
      simp [identityAt]
    · rw [key 3 (by norm_num) (by norm_num), hid _ (by norm_num) (by norm_num),
        hid _ (by norm_num) (by norm_num), hid _ (by norm_num) (by norm_num),
        hid _ (by norm_num) (by norm_num)]
      simp [identityAt]

/-- Witness for C8: the identity matrix at address 16, the vector at 32, the
result at 36 and the translation `(1, 2, 3)`. -/
theorem translateM_multiplyMV_origin_witness :
    multiplyMV (translateM (storeVec4 memCountId 32 0 0 0 1) 16 0 1 2 3) 36 16 32 (36 + 2) =
        multiplyMV (storeVec4 memCountId 32 1 2 3 1) 36 16 32 (36 + 2) ∧
      multiplyMV (translateM (storeVec4 memCountId 32 0 0 0 1) 16 0 1 2 3) 36 16 32 (36 + 2) = 3 := by
  have hI : ∀ k : Int, 0 ≤ k → k < 16 → memCountId (16 + k) = identityAt k := by
    intro k hk0 hk
    interval_cases k <;> simp [memCountId, identityAt]
  have h := translateM_multiplyMV_origin memCountId 16 32 36 1 2 3 (by norm_num) (by norm_num)
  exact ⟨h.1 2 (by norm_num) (by norm_num), (h.2 hI).2.2.1⟩

end TransformClaims

section LookAtClaims

variable {α : Type} [Field α]

/-- The sixteen stores of `setLookAtM` followed by its call of `translateM`,
for arbitrary stored values: what the floats 12..15 hold afterwards. -/
theorem stores_translateM_last {β : Type} [Add β] [Mul β] (mem : Buf β) (rm rmOffset : Int)
    (a0 a1 a2 a3 a4 a5 a6 a7 a8 a9 a10 a11 a12 a13 a14 a15 x y z : β) :
    let mem' := translateM
      (wr (wr (wr (wr (wr (wr (wr (wr (wr (wr (wr (wr (wr (wr (wr (wr mem
        (rm + (rmOffset + 0)) a0) (rm + (rmOffset + 1)) a1) (rm + (rmOffset + 2)) a2)
        (rm + (rmOffset + 3)) a3) (rm + (rmOffset + 4)) a4) (rm + (rmOffset + 5)) a5)
        (rm + (rmOffset + 6)) a6) (rm + (rmOffset + 7)) a7) (rm + (rmOffset + 8)) a8)
        (rm + (rmOffset + 9)) a9) (rm + (rmOffset + 10)) a10) (rm + (rmOffset + 11)) a11)
        (rm + (rmOffset + 12)) a12) (rm + (rmOffset + 13)) a13) (rm + (rmOffset + 14)) a14)
        (rm + (rmOffset + 15)) a15) rm rmOffset x y z
    mem' (rm + rmOffset + (12 + 0)) = a12 + (a0 * x + a4 * y + a8 * z) ∧
    mem' (rm + rmOffset + (12 + 1)) = a13 + (a1 * x + a5 * y + a9 * z) ∧
    mem' (rm + rmOffset + (12 + 2)) = a14 + (a2 * x + a6 * y + a10 * z) ∧
    mem' (rm + rmOffset + (12 + 3)) = a15 + (a3 * x + a7 * y + a11 * z) := by
  intro mem'
  refine ⟨?_, ?_, ?_, ?_⟩ <;>
    (simp only [mem']
     rw [translateM_val _ _ _ _ _ _ _ (by norm_num) (by norm_num)]
     simp (disch := omega) only [wr_eq, wr_of_ne])

end LookAtClaims

section LookAtReal

theorem sqrt_twenty_five : Real.sqrt 25 = 5 := by
  rw [show (25 : ℝ) = 5 ^ 2 by norm_num]
  exact Real.sqrt_sq (by norm_num)

end LookAtReal

section RotateClaims

variable {α : Type} [Field α] [DecidableEq α]

set_option maxHeartbeats 1000000 in
/-- C10 (`rotateM` overwrites the whole matrix): in each of the three
unit-axis branches and in the general branch, every one of the 16 elements at
`rmOffset` is determined by the angle and the axis alone (two calls with the
same angle and axis on any two memories, at any two places, leave the same
element `k`), positions 3, 7, 11, 12, 13, 14 hold 0 and position 15 holds 1,
and no float outside the 16-element window changes. -/
theorem rotateM_overwrites (L : Libm α) (mem mem' : Buf α) (rm rmOffset rm' rmOffset' : Int)
    (angle x y z : α) (k : Int) (hk0 : 0 ≤ k) (hk : k < 16)
    (p : Int) (hp : p < rm + rmOffset ∨ rm + rmOffset + 16 ≤ p) :
    rotateM L mem rm rmOffset angle x y z (rm + rmOffset + k) =
        rotateM L mem' rm' rmOffset' angle x y z (rm' + rmOffset' + k) ∧
      (rotateM L mem rm rmOffset angle x y z (rm + rmOffset + 3) = 0 ∧
        rotateM L mem rm rmOffset angle x y z (rm + rmOffset + 7) = 0 ∧
        rotateM L mem rm rmOffset angle x y z (rm + rmOffset + 11) = 0 ∧
        rotateM L mem rm rmOffset angle x y z (rm + rmOffset + 12) = 0 ∧
        rotateM L mem rm rmOffset angle x y z (rm + rmOffset + 13) = 0 ∧
        rotateM L mem rm rmOffset angle x y z (rm + rmOffset + 14) = 0 ∧
        rotateM L mem rm rmOffset angle x y z (rm + rmOffset + 15) = 1) ∧
      rotateM L mem rm rmOffset angle x y z p = mem p := by
  simp only [rotateM]
  split_ifs <;>
    refine ⟨by interval_cases k <;> simp (disch := omega) only [wr_eq, wr_of_ne],
      ⟨?_, ?_, ?_, ?_, ?_, ?_, ?_⟩, ?_⟩ <;>
    simp (disch := omega) only [wr_eq, wr_of_ne]

/-- Witness for C10: a quarter turn about the x axis written at address 0 of
the all-sevens memory leaves address 20 at 7. -/
theorem rotateM_overwrites_witness :
    rotateM ⟨Real.sin, Real.cos, Real.sqrt, Real.pi⟩ (fun _ => 7) 0 0 90 1 0 0 20 = 7 ∧
      rotateM ⟨Real.sin, Real.cos, Real.sqrt, Real.pi⟩ (fun _ => 7) 0 0 90 1 0 0 (0 + 0 + 12) = 0 :=
  have h := rotateM_overwrites ⟨Real.sin, Real.cos, Real.sqrt, Real.pi⟩ (fun _ => 7) (fun _ => 7)
    0 0 0 0 90 1 0 0 5 (by norm_num) (by norm_num) 20 (Or.inr (by norm_num))
  ⟨h.2.2, h.2.1.2.2.2.1⟩

end RotateClaims

/-! ## Claims about the branches of `rotateM` -/

section RotateBranches

variable {α : Type} [Field α] [DecidableEq α]

/-- Outside its three special cases `rotateM` is its general-axis branch. -/
theorem rotateM_eq_general (L : Libm α) (mem : Buf α) (rm rmOffset : Int) (angle x y z : α)
    (hX : ¬(1 = x ∧ 0 = y ∧ 0 = z)) (hY : ¬(0 = x ∧ 1 = y ∧ 0 = z))
    (hZ : ¬(0 = x ∧ 0 = y ∧ 1 = z)) :
    rotateM L mem rm rmOffset angle x y z = rotateM_general L mem rm rmOffset angle x y z := by
  simp only [rotateM, rotateM_general, if_neg hX, if_neg hY, if_neg hZ]

set_option maxHeartbeats 1000000 in
set_option maxRecDepth 100000 in
/-- In binary32, with `s = sin(angle)` and `c = cos(angle)` binary32 values,
`s` and `1 - c` finite, and `sqrt(1) = 1`: for each of the axes `(1,0,0)`,
`(0,1,0)` and `(0,0,1)` the special-cased branch of `rotateM` and the
general-axis branch write the same float at every position other than the
diagonal position of the axis (0, 5, 10); there the special-cased branch
writes 1 and the general-axis branch writes the float `1 * 1 * (1 - c) + c`. -/
theorem rotateM_fast_path_binary32 (L : Libm F32) (hsqrt : L.sqrt 1 = 1) (mem mem' : Buf F32)
    (rm rmOffset : Int) (angle : F32)
    (hs : F32.IsFloat (L.sin (angle * (L.M_PI / 180))))
    (hsf : F32.IsFinite (L.sin (angle * (L.M_PI / 180))))
    (hc : F32.IsFloat (L.cos (angle * (L.M_PI / 180))))
    (hnc : F32.IsFinite (1 - L.cos (angle * (L.M_PI / 180))))
    (k : Int) (hk0 : 0 ≤ k) (hk : k < 16) :
    ((k ≠ 0 → rotateM L mem rm rmOffset angle 1 0 0 (rm + rmOffset + k) =
          rotateM_general L mem' rm rmOffset angle 1 0 0 (rm + rmOffset + k)) ∧
        (k ≠ 5 → rotateM L mem rm rmOffset angle 0 1 0 (rm + rmOffset + k) =
          rotateM_general L mem' rm rmOffset angle 0 1 0 (rm + rmOffset + k)) ∧
        (k ≠ 10 → rotateM L mem rm rmOffset angle 0 0 1 (rm + rmOffset + k) =
          rotateM_general L mem' rm rmOffset angle 0 0 1 (rm + rmOffset + k))) ∧
      (rotateM L mem rm rmOffset angle 1 0 0 (rm + rmOffset + 0) = 1 ∧
        rotateM L mem rm rmOffset angle 0 1 0 (rm + rmOffset + 5) = 1 ∧
        rotateM L mem rm rmOffset angle 0 0 1 (rm + rmOffset + 10) = 1) ∧
      (rotateM_general L mem' rm rmOffset angle 1 0 0 (rm + rmOffset + 0) =
          1 * 1 * (1 - L.cos (angle * (L.M_PI / 180))) + L.cos (angle * (L.M_PI / 180)) ∧
        rotateM_general L mem' rm rmOffset angle 0 1 0 (rm + rmOffset + 5) =
          1 * 1 * (1 - L.cos (angle * (L.M_PI / 180))) + L.cos (angle * (L.M_PI / 180)) ∧
        rotateM_general L mem' rm rmOffset angle 0 0 1 (rm + rmOffset + 10) =
          1 * 1 * (1 - L.cos (angle * (L.M_PI / 180))) + L.cos (angle * (L.M_PI / 180))) := by
  have e1 : L.sqrt (1 * 1 + 0 * 0 + 0 * 0) = 1 := by
    rw [show (1 : F32) * 1 + 0 * 0 + 0 * 0 = 1 by decide]; exact hsqrt
  have e2 : L.sqrt (0 * 0 + 1 * 1 + 0 * 0) = 1 := by
    rw [show (0 : F32) * 0 + 1 * 1 + 0 * 0 = 1 by decide]; exact hsqrt
  have e3 : L.sqrt (0 * 0 + 0 * 0 + 1 * 1) = 1 := by
    rw [show (0 : F32) * 0 + 0 * 0 + 1 * 1 = 1 by decide]; exact hsqrt
  have h10 : ((1 : F32) = 0) = False := eq_false (by decide)
  have h01 : ((0 : F32) = 1) = False := eq_false (by decide)
  have m00 : (0 : F32) * 0 = 0 := by decide
  have m01 : (0 : F32) * 1 = 0 := by decide
  have m10 : (1 : F32) * 0 = 0 := by decide
  have a00 : (0 : F32) + 0 = 0 := by decide
  have s00 : (0 : F32) - 0 = 0 := by decide
  have znc := F32.zero_mul_finite _ hnc
  have zs := F32.zero_mul_finite _ hsf
  have os := F32.one_mul_float _ hs
  have ac := F32.zero_add_float _ hc
  have as := F32.zero_add_float _ hs
  have ss : (0 : F32) - L.sin (angle * (L.M_PI / 180)) = -L.sin (angle * (L.M_PI / 180)) :=
    F32.zero_add_float _ (F32.isFloat_neg _ hs)
  simp only [rotateM, rotateM_general, e1, e2, e3, ne_eq, not_true_eq_false, if_false,
    and_self, if_true, h10, h01, false_and, and_false]
  refine ⟨⟨?_, ?_, ?_⟩, ⟨?_, ?_, ?_⟩, ⟨?_, ?_, ?_⟩⟩
  · intro hk'
    interval_cases k <;> first
      | exact absurd rfl hk'
      | (simp (disch := omega) only [wr_eq, wr_of_ne] <;>
         simp only [m00, m01, m10, a00, s00, znc, zs, os, ac, as, ss])
  · intro hk'
    interval_cases k <;> first
      | exact absurd rfl hk'
      | (simp (disch := omega) only [wr_eq, wr_of_ne] <;>
         simp only [m00, m01, m10, a00, s00, znc, zs, os, ac, as, ss])
  · intro hk'
    interval_cases k <;> first
      | exact absurd rfl hk'
      | (simp (disch := omega) only [wr_eq, wr_of_ne] <;>
         simp only [m00, m01, m10, a00, s00, znc, zs, os, ac, as, ss])
  all_goals simp (disch := omega) only [wr_eq, wr_of_ne]

set_option maxHeartbeats 1000000 in
/-- C11 (amended): in exact arithmetic (the source run over a field), with
`s = sin(angle)` and `c = cos(angle)` arbitrary values and `sqrt(1) = 1` (the
axis has length 1, so the general branch does not renormalise), for each of the axes `(1,0,0)`,
`(0,1,0)` and `(0,0,1)` every one of the 16 elements written by the
special-cased branch of `rotateM` equals the element that the general-axis
branch writes for the same axis and angle.  In binary32, with `s` and `c`
binary32 values, `s` and `1 - c` finite, and `sqrt(1) = 1`, the two branches
write the same float at every position other than the diagonal position of
the axis (0, 5, 10); there the special-cased branch writes 1 and the
general-axis branch writes the float `1 * 1 * (1 - c) + c`. -/
theorem rotateM_fast_path_eq_general (L : Libm α) (hsqrt : L.sqrt 1 = 1) (mem mem' : Buf α)
    (rm rmOffset : Int) (angle : α) (k : Int) (hk0 : 0 ≤ k) (hk : k < 16) :
    rotateM L mem rm rmOffset angle 1 0 0 (rm + rmOffset + k) =
        rotateM_general L mem' rm rmOffset angle 1 0 0 (rm + rmOffset + k) ∧
      rotateM L mem rm rmOffset angle 0 1 0 (rm + rmOffset + k) =
        rotateM_general L mem' rm rmOffset angle 0 1 0 (rm + rmOffset + k) ∧
      rotateM L mem rm rmOffset angle 0 0 1 (rm + rmOffset + k) =
        rotateM_general L mem' rm rmOffset angle 0 0 1 (rm + rmOffset + k) ∧
      ∀ (L32 : Libm F32) (m32 m32' : Buf F32) (a32 : F32), L32.sqrt 1 = 1 →
        F32.IsFloat (L32.sin (a32 * (L32.M_PI / 180))) →
        F32.IsFinite (L32.sin (a32 * (L32.M_PI / 180))) →
        F32.IsFloat (L32.cos (a32 * (L32.M_PI / 180))) →
        F32.IsFinite (1 - L32.cos (a32 * (L32.M_PI / 180))) →
        ((k ≠ 0 → rotateM L32 m32 rm rmOffset a32 1 0 0 (rm + rmOffset + k) =
              rotateM_general L32 m32' rm rmOffset a32 1 0 0 (rm + rmOffset + k)) ∧
            (k ≠ 5 → rotateM L32 m32 rm rmOffset a32 0 1 0 (rm + rmOffset + k) =
              rotateM_general L32 m32' rm rmOffset a32 0 1 0 (rm + rmOffset + k)) ∧
            (k ≠ 10 → rotateM L32 m32 rm rmOffset a32 0 0 1 (rm + rmOffset + k) =
              rotateM_general L32 m32' rm rmOffset a32 0 0 1 (rm + rmOffset + k))) ∧
          (rotateM L32 m32 rm rmOffset a32 1 0 0 (rm + rmOffset + 0) = 1 ∧
            rotateM L32 m32 rm rmOffset a32 0 1 0 (rm + rmOffset + 5) = 1 ∧
            rotateM L32 m32 rm rmOffset a32 0 0 1 (rm + rmOffset + 10) = 1) ∧
          (rotateM_general L32 m32' rm rmOffset a32 1 0 0 (rm + rmOffset + 0) =
              1 * 1 * (1 - L32.cos (a32 * (L32.M_PI / 180)))
                + L32.cos (a32 * (L32.M_PI / 180)) ∧
            rotateM_general L32 m32' rm rmOffset a32 0 1 0 (rm + rmOffset + 5) =
              1 * 1 * (1 - L32.cos (a32 * (L32.M_PI / 180)))
                + L32.cos (a32 * (L32.M_PI / 180)) ∧
            rotateM_general L32 m32' rm rmOffset a32 0 0 1 (rm + rmOffset + 10) =
              1 * 1 * (1 - L32.cos (a32 * (L32.M_PI / 180)))
                + L32.cos (a32 * (L32.M_PI / 180))) := by
  have e1 : L.sqrt (1 * 1 + 0 * 0 + 0 * 0) = 1 := by simpa using hsqrt
  have e2 : L.sqrt (0 * 0 + 1 * 1 + 0 * 0) = 1 := by simpa using hsqrt
  have e3 : L.sqrt (0 * 0 + 0 * 0 + 1 * 1) = 1 := by simpa using hsqrt
  refine ⟨?_, ?_, ?_, fun L32 m32 m32' a32 h1 h2 h3 h4 h5 =>
    rotateM_fast_path_binary32 L32 h1 m32 m32' rm rmOffset a32 h2 h3 h4 h5 k hk0 hk⟩ <;>
    simp only [rotateM, rotateM_general, e1, e2, e3, ne_eq, not_true_eq_false, if_false,
      and_self, if_true, one_ne_zero, zero_ne_one, false_and, and_false] <;>
    interval_cases k <;>
    simp (disch := omega) only [wr_eq, wr_of_ne] <;> ring


/-- Witness for C11: a libm whose `sqrt` is the real square root. -/
theorem rotateM_fast_path_eq_general_witness :
    rotateM ⟨Real.sin, Real.cos, Real.sqrt, Real.pi⟩ (fun _ => 7) 0 0 90 0 1 0 (0 + 0 + 8) =
      rotateM_general ⟨Real.sin, Real.cos, Real.sqrt, Real.pi⟩ (fun _ => 3) 0 0 90 0 1 0
        (0 + 0 + 8) :=
  (rotateM_fast_path_eq_general ⟨Real.sin, Real.cos, Real.sqrt, Real.pi⟩ Real.sqrt_one
    (fun _ => 7) (fun _ => 3) 0 0 90 8 (by norm_num) (by norm_num)).2.1

end RotateBranches

/-! ## Claims about `scaleM` and aliasing -/

section ScaleAlias

variable {α : Type} [Field α]

/-- C12 (`scaleM` scales the elements 0..11 and leaves the rest): for every
`i` in 0..3, afterwards element `smOffset+i` is `x` times its old value,
element `smOffset+4+i` is `y` times its old value and element `smOffset+8+i` is
`z` times its old value; the elements `smOffset+12..smOffset+15` and every
float outside the 16-element window are unchanged. -/
theorem scaleM_scales (mem : Buf α) (sm smOffset : Int) (x y z : α) (i : Int)
    (hi0 : 0 ≤ i) (hi : i < 4) (p : Int)
    (hp : p < sm + smOffset ∨ sm + smOffset + 12 ≤ p) :
    scaleM mem sm smOffset x y z (sm + smOffset + i) = x * mem (sm + smOffset + i) ∧
      scaleM mem sm smOffset x y z (sm + smOffset + 4 + i) = y * mem (sm + smOffset + 4 + i) ∧
      scaleM mem sm smOffset x y z (sm + smOffset + 8 + i) = z * mem (sm + smOffset + 8 + i) ∧
      scaleM mem sm smOffset x y z p = mem p := by
  have hi' : i = 0 ∨ i = 1 ∨ i = 2 ∨ i = 3 := by omega
  simp only [scaleM, scaleM_body, List.foldl]
  refine ⟨?_, ?_, ?_, ?_⟩
  · rcases hi' with rfl | rfl | rfl | rfl <;>
      simp (disch := omega) only [wr_eq, wr_of_ne] <;> ring_nf
  · rcases hi' with rfl | rfl | rfl | rfl <;>
      simp (disch := omega) only [wr_eq, wr_of_ne] <;> ring_nf
  · rcases hi' with rfl | rfl | rfl | rfl <;>
      simp (disch := omega) only [wr_eq, wr_of_ne] <;> ring_nf
  · simp (disch := omega) only [wr_of_ne]

/-- Witness for C12: the matrix with elements 1..16 at address 0, scaled by
`(2, 3, 5)`: element 1 becomes 4, element 5 becomes 18, element 9 becomes 50
and element 13 stays 14. -/
theorem scaleM_scales_witness :
    scaleM memCount 0 0 2 3 5 (0 + 0 + 1) = 2 * memCount (0 + 0 + 1) ∧
      scaleM memCount 0 0 2 3 5 (0 + 0 + 4 + 1) = 3 * memCount (0 + 0 + 4 + 1) ∧
      scaleM memCount 0 0 2 3 5 (0 + 0 + 8 + 1) = 5 * memCount (0 + 0 + 8 + 1) ∧
      scaleM memCount 0 0 2 3 5 13 = memCount 13 :=
  scaleM_scales memCount 0 0 2 3 5 1 (by norm_num) (by norm_num) 13 (Or.inr (by norm_num))

/-- With `r` and `rhs` the same buffer, apart from `lhs`, `multiplyMM` still
stores in `r[I(i,k)]` the sum over `j` of `lhs[I(j,k)] * rhs[I(i,j)]` of the
values before the call: pass `i` reads row `i` of `rhs` before it writes row
`i` of `r`, and no later pass reads that row again. -/
theorem multiplyMM_val_rhs_alias (mem : Buf α) (r lhs : Int)
    (hl : r + 16 ≤ lhs ∨ lhs + 16 ≤ r)
    (i k : Int) (hi0 : 0 ≤ i) (hi : i < 4) (hk0 : 0 ≤ k) (hk : k < 4) :
    multiplyMM mem r lhs r (r + I i k) =
      mem (lhs + I 0 k) * mem (r + I i 0) + mem (lhs + I 1 k) * mem (r + I i 1)
        + mem (lhs + I 2 k) * mem (r + I i 2) + mem (lhs + I 3 k) * mem (r + I i 3) := by
  have hi' : i = 0 ∨ i = 1 ∨ i = 2 ∨ i = 3 := by omega
  simp only [multiplyMM, List.foldl]
  rcases hi' with rfl | rfl | rfl | rfl
  · rw [multiplyMM_outer_frame _ _ _ _ _ _ (by simp only [I]; omega),
      multiplyMM_outer_frame _ _ _ _ _ _ (by simp only [I]; omega),
      multiplyMM_outer_frame _ _ _ _ _ _ (by simp only [I]; omega),
      multiplyMM_outer_val _ _ _ _ _ _ hk0 hk]
  · rw [multiplyMM_outer_frame _ _ _ _ _ _ (by simp only [I]; omega),
      multiplyMM_outer_frame _ _ _ _ _ _ (by simp only [I]; omega),
      multiplyMM_outer_val _ _ _ _ _ _ hk0 hk]
    simp only [I] at *
    simp (disch := omega) only [multiplyMM_outer_frame]
  · rw [multiplyMM_outer_frame _ _ _ _ _ _ (by simp only [I]; omega),
      multiplyMM_outer_val _ _ _ _ _ _ hk0 hk]
    simp only [I] at *
    simp (disch := omega) only [multiplyMM_outer_frame]
  · rw [multiplyMM_outer_val _ _ _ _ _ _ hk0 hk]
    simp only [I] at *
    simp (disch := omega) only [multiplyMM_outer_frame]

/-- Counterexample to C13 as stated.  With `lhs` (at 0) having its only
non-zero element 1 at position 0 and `rhs` (at 16) having 2 at position 0 and 1
at position 4, `multiplyMM` with `r = lhs` leaves 2 at position 4 of `r`, while
with a separate `r` (at 32) it leaves 1 there: the first pass has overwritten
`lhs[0]` with 2 before the second pass reads it. -/
theorem multiplyMM_lhs_alias_counterexample :
    multiplyMM memAlias 0 0 16 (0 + 4) = 2 ∧ multiplyMM memAlias 32 0 16 (32 + 4) = 1 := by
  constructor
  · simp only [multiplyMM, multiplyMM_outer, multiplyMM_inner, List.foldl, I, wr_apply, memAlias]
    norm_num
  · have h := multiplyMM_val memAlias 32 0 16 (by norm_num) (by norm_num) 1 0 (by norm_num)
      (by norm_num) (by norm_num) (by norm_num)
    simp only [I] at h
    norm_num at h ⊢
    rw [h]
    simp only [memAlias]
    norm_num

/-- C13 (amended): with `r` and `lhs` the same buffer, the positions 0..3 of
`r`, which the first pass of `multiplyMM` writes, hold the same values as
after a call with a separate destination buffer. -/
theorem multiplyMM_lhs_alias_first_pass (mem : Buf α) (a b r : Int)
    (hra : r + 16 ≤ a ∨ a + 16 ≤ r) (hrb : r + 16 ≤ b ∨ b + 16 ≤ r)
    (k : Int) (hk0 : 0 ≤ k) (hk : k < 4) :
    multiplyMM mem a a b (a + k) = multiplyMM mem r a b (r + k) := by
  have ea : a + k = a + I 0 k := by simp only [I]; omega
  have er : r + k = r + I 0 k := by simp only [I]; omega
  rw [ea, er, multiplyMM_val _ _ _ _ hra hrb 0 k (by norm_num) (by norm_num) hk0 hk]
  simp only [multiplyMM, List.foldl]
  rw [multiplyMM_outer_frame _ _ _ _ _ _ (by simp only [I]; omega),
    multiplyMM_outer_frame _ _ _ _ _ _ (by simp only [I]; omega),
    multiplyMM_outer_frame _ _ _ _ _ _ (by simp only [I]; omega),
    multiplyMM_outer_val _ _ _ _ _ _ hk0 hk]

/-- Witness for C13 (amended), on the memory of the counterexample. -/
theorem multiplyMM_lhs_alias_first_pass_witness :
    multiplyMM memAlias 0 0 16 (0 + 0) = multiplyMM memAlias 32 0 16 (32 + 0) :=
  multiplyMM_lhs_alias_first_pass memAlias 0 16 32 (by norm_num) (by norm_num) 0
    (by norm_num) (by norm_num)

/-- C14 (`multiplyMM` with `dst` aliasing `rhs`): with `r` and `rhs` the same
buffer, apart from `lhs`, `multiplyMM` leaves in `r` the same 16 values as a
call with the same operands and a separate destination buffer. -/
theorem multiplyMM_rhs_alias (mem : Buf α) (a b r : Int)
    (hab : a + 16 ≤ b ∨ b + 16 ≤ a) (hra : r + 16 ≤ a ∨ a + 16 ≤ r)
    (hrb : r + 16 ≤ b ∨ b + 16 ≤ r) (k : Int) (hk0 : 0 ≤ k) (hk : k < 16) :
    multiplyMM mem b a b (b + k) = multiplyMM mem r a b (r + k) := by
  have hk' : k = I (k / 4) (k % 4) := by simp only [I]; omega
  rw [hk', multiplyMM_val _ _ _ _ hra hrb (k / 4) (k % 4) (by omega) (by omega) (by omega)
      (by omega),
    multiplyMM_val_rhs_alias _ _ _ (by omega) (k / 4) (k % 4) (by omega) (by omega) (by omega)
      (by omega)]

/-- Witness for C14: `lhs` at 0 and `rhs` at 16 in the memory used for C13. -/
theorem multiplyMM_rhs_alias_witness :
    multiplyMM memAlias 16 0 16 (16 + 4) = multiplyMM memAlias 32 0 16 (32 + 4) :=
  multiplyMM_rhs_alias memAlias 0 16 32 (by norm_num) (by norm_num) (by norm_num) 4
    (by norm_num) (by norm_num)

/-- C15 (`multiplyMV` with `dst` aliasing the source vector): with `r` and
`rhs` the same 4-float buffer `v`, apart from the matrix, `multiplyMV` leaves
in it the same 4 values as a call with a separate destination buffer `r`; the
four components of `v` are passed by value before any store. -/
theorem multiplyMV_rhs_alias (mem : Buf α) (M v r : Int)
    (hv : v + 4 ≤ M ∨ M + 16 ≤ v) (hr : r + 4 ≤ M ∨ M + 16 ≤ r)
    (i : Int) (hi0 : 0 ≤ i) (hi : i < 4) :
    multiplyMV mem v M v (v + i) = multiplyMV mem r M v (r + i) := by
  rw [multiplyMV_val _ _ _ _ hv i hi0 hi, multiplyMV_val _ _ _ _ hr i hi0 hi]

/-- Witness for C15: the matrix with its only 1 at position 1 at address 0 and
the vector `(0,1,0,0)` at address 16, transformed in place and into address 20. -/
theorem multiplyMV_rhs_alias_witness :
    multiplyMV memUnitVec 16 0 16 (16 + 1) = multiplyMV memUnitVec 20 0 16 (20 + 1) :=
  multiplyMV_rhs_alias memUnitVec 0 16 20 (by norm_num) (by norm_num) 1 (by norm_num)
    (by norm_num)

end ScaleAlias

/-! ## Claims about the scratch storage of `invertM` -/

section InvertScratchCongr

variable {α : Type} [Field α]

/-- The scratch computation reads nothing but the 16 source floats: on two
memories with the same 16 source values, and from any two contents of the
`static` locals, it leaves the same `det` and the same 16 cofactors. -/
theorem invertM_scratch_congr (st st' : InvertStatics α) (mem mem' : Buf α)
    (m mOffset m' mOffset' : Int)
    (h : ∀ k : Int, 0 ≤ k → k < 16 → mem' (m' + mOffset' + k) = mem (m + mOffset + k)) :
    (invertM_scratch st' mem' m' mOffset').det = (invertM_scratch st mem m mOffset).det ∧
      ∀ k ∈ ([0, 1, 2, 3, 4, 5, 6, 7, 8, 9, 10, 11, 12, 13, 14, 15] : List Int),
        (invertM_scratch st' mem' m' mOffset').dstMatrix k =
          (invertM_scratch st mem m mOffset).dstMatrix k := by
  have h0 := h 0 (by norm_num) (by norm_num)
  have h1 := h 1 (by norm_num) (by norm_num)
  have h2 := h 2 (by norm_num) (by norm_num)
  have h3 := h 3 (by norm_num) (by norm_num)
  have h4 := h 4 (by norm_num) (by norm_num)
  have h5 := h 5 (by norm_num) (by norm_num)
  have h6 := h 6 (by norm_num) (by norm_num)
  have h7 := h 7 (by norm_num) (by norm_num)
  have h8 := h 8 (by norm_num) (by norm_num)
  have h9 := h 9 (by norm_num) (by norm_num)
  have h10 := h 10 (by norm_num) (by norm_num)
  have h11 := h 11 (by norm_num) (by norm_num)
  have h12 := h 12 (by norm_num) (by norm_num)
  have h13 := h 13 (by norm_num) (by norm_num)
  have h14 := h 14 (by norm_num) (by norm_num)
  have h15 := h 15 (by norm_num) (by norm_num)
  simp only [List.forall_mem_cons, List.not_mem_nil, false_implies, implies_true, and_true,
    invertM_scratch, wr_apply, Int.reduceEq, reduceIte, h0, h1, h2, h3, h4, h5, h6, h7, h8, h9,
    h10, h11, h12, h13, h14, h15, and_self]

end InvertScratchCongr

section InvertScratchClaims

variable {α : Type} [Field α] [DecidableEq α]

/-- The function `invertM` is its first part followed by its second part. -/
theorem invertM_eq_scratch_stores (st : InvertStatics α) (mem : Buf α)
    (mInv mInvOffset m mOffset : Int) :
    invertM st mem mInv mInvOffset m mOffset =
      invertM_stores (invertM_scratch st mem m mOffset) mem mInv mInvOffset := rfl

/-- The second part of `invertM` depends on the `static` locals only through
`det` and the 16 cofactors. -/
theorem invertM_stores_congr (st st' : InvertStatics α) (mem : Buf α) (mInv mInvOffset : Int)
    (hdet : st'.det = st.det)
    (hdst : ∀ k ∈ ([0, 1, 2, 3, 4, 5, 6, 7, 8, 9, 10, 11, 12, 13, 14, 15] : List Int),
      st'.dstMatrix k = st.dstMatrix k) :
    (invertM_stores st' mem mInv mInvOffset).ret = (invertM_stores st mem mInv mInvOffset).ret ∧
      (invertM_stores st' mem mInv mInvOffset).mem =
        (invertM_stores st mem mInv mInvOffset).mem := by
  simp only [List.forall_mem_cons, List.not_mem_nil, false_implies, implies_true,
    and_true] at hdst
  obtain ⟨d0, d1, d2, d3, d4, d5, d6, d7, d8, d9, d10, d11, d12, d13, d14, d15⟩ := hdst
  simp only [invertM_stores, hdet, d0, d1, d2, d3, d4, d5, d6, d7, d8, d9, d10, d11, d12, d13,
    d14, d15]
  split_ifs <;> exact ⟨rfl, rfl⟩

end InvertScratchClaims

section InvertScratchClaims2

variable {α : Type} [Field α] [DecidableEq α]

/-- Counterexample to C16 as stated.  Two calls on distinct buffers, A
inverting `diag(2,2,2,2)` (at 0) into address 32 and B inverting
`diag(4,4,4,4)` (at 16) into address 48.  Run alone, call A stores 1/2 at
position 0 of its destination.  When call B runs its first part between the
two parts of call A, the shared scratch holds the cofactors of B's matrix and
call A stores 1/4 there. -/
theorem invertM_overlapped_counterexample :
    (invertM statics0 memTwoDiag 32 0 0 0).mem 32 = 1 / 2 ∧
      (invertM_overlapped statics0 memTwoDiag 32 0 48 16).mem 32 = 1 / 4 := by
  have hA : (invertM_scratch statics0 memTwoDiag 0 0).det = 16 ∧
      (invertM_scratch statics0 memTwoDiag 0 0).dstMatrix 0 = 8 := by
    simp only [invertM_scratch, wr_apply, memTwoDiag, statics0]
    norm_num
  have hB :
      (invertM_scratch (invertM_scratch statics0 memTwoDiag 0 0) memTwoDiag 16 0).det = 256 ∧
      (invertM_scratch (invertM_scratch statics0 memTwoDiag 0 0) memTwoDiag 16 0).dstMatrix 0
        = 64 := by
    simp only [invertM_scratch, wr_apply, memTwoDiag, statics0]
    norm_num
  constructor
  · have h := invertM_val statics0 memTwoDiag 32 0 0 0 (by rw [hA.1]; norm_num) 0 (by norm_num)
      (by norm_num)
    rw [hA.1, hA.2] at h
    norm_num at h
    rw [h]
  · simp only [invertM_overlapped, invertM_stores, hB.1, hB.2]
    norm_num
    simp (disch := omega) only [wr_eq, wr_of_ne]

/-- C16 (amended): the scratch of `invertM` is `static`, shared by all calls,
and every scratch element a call reads has been written by that call before;
so the value returned and the memory left by a call are the same for any two
contents of the `static` locals at entry.  Calls that run one after another
each produce the same result as when run alone. -/
theorem invertM_statics_independent (st st' : InvertStatics α) (mem : Buf α)
    (mInv mInvOffset m mOffset : Int) :
    (invertM st' mem mInv mInvOffset m mOffset).ret =
        (invertM st mem mInv mInvOffset m mOffset).ret ∧
      (invertM st' mem mInv mInvOffset m mOffset).mem =
        (invertM st mem mInv mInvOffset m mOffset).mem := by
  obtain ⟨hdet, hdst⟩ := invertM_scratch_congr st st' mem mem m mOffset m mOffset
    (fun _ _ _ => rfl)
  rw [invertM_eq_scratch_stores, invertM_eq_scratch_stores]
  exact invertM_stores_congr _ _ mem mInv mInvOffset hdet hdst

/-- C20 (`invertM` in place): for any destination and source windows, equal
or overlapping ones included, `invertM` returns the same boolean and leaves the
same 16 destination values as a call whose source is a copy of the 16 source
floats in a separate buffer `c`. -/
theorem invertM_in_place (st : InvertStatics α) (mem : Buf α)
    (mInv mInvOffset m mOffset c : Int)
    (hsep : c + 16 ≤ mInv + mInvOffset ∨ mInv + mInvOffset + 16 ≤ c)
    (k : Int) (hk0 : 0 ≤ k) (hk : k < 16) :
    (invertM st mem mInv mInvOffset m mOffset).ret =
        (invertM st (copy16 mem (m + mOffset) c) mInv mInvOffset c 0).ret ∧
      (invertM st mem mInv mInvOffset m mOffset).mem (mInv + mInvOffset + k) =
        (invertM st (copy16 mem (m + mOffset) c) mInv mInvOffset c 0).mem
          (mInv + mInvOffset + k) := by
  have hcopy : ∀ j : Int, 0 ≤ j → j < 16 →
      copy16 mem (m + mOffset) c (c + 0 + j) = mem (m + mOffset + j) := by
    intro j hj0 hj
    simp only [copy16]
    rw [if_pos (by omega)]
    congr 1
    omega
  obtain ⟨hdet, hdst⟩ := invertM_scratch_congr st st mem (copy16 mem (m + mOffset) c)
    m mOffset c 0 hcopy
  have hdk : (invertM_scratch st (copy16 mem (m + mOffset) c) c 0).dstMatrix k =
      (invertM_scratch st mem m mOffset).dstMatrix k := by
    apply hdst
    simp only [List.mem_cons, List.mem_singleton]
    omega
  by_cases hz : (invertM_scratch st mem m mOffset).det = 0
  · have hz' : (invertM_scratch st (copy16 mem (m + mOffset) c) c 0).det = 0 := by
      rw [hdet]; exact hz
    constructor
    · rw [(invertM_ret_false_iff st mem mInv mInvOffset m mOffset).mpr hz,
        (invertM_ret_false_iff st _ mInv mInvOffset c 0).mpr hz']
    · rw [invertM_mem_of_det_zero _ _ _ _ _ _ hz, invertM_mem_of_det_zero _ _ _ _ _ _ hz']
      simp only [copy16]
      rw [if_neg (by omega)]
  · have hz' : (invertM_scratch st (copy16 mem (m + mOffset) c) c 0).det ≠ 0 := by
      rw [hdet]; exact hz
    constructor
    · cases h1 : (invertM st mem mInv mInvOffset m mOffset).ret
      · exact absurd ((invertM_ret_false_iff st mem mInv mInvOffset m mOffset).mp h1) hz
      · cases h2 : (invertM st (copy16 mem (m + mOffset) c) mInv mInvOffset c 0).ret
        · exact absurd ((invertM_ret_false_iff st _ mInv mInvOffset c 0).mp h2) hz'
        · rfl
    · rw [invertM_val _ _ _ _ _ _ hz k hk0 hk, invertM_val _ _ _ _ _ _ hz' k hk0 hk, hdet, hdk]

/-- Witness for C20: the matrix `diag(2,2,2,2)` at 0..15 inverted into the
overlapping window 4..19, against a call reading a copy of it at 32..47. -/
theorem invertM_in_place_witness :
    (invertM statics0 memDiag2 0 4 0 0).ret =
        (invertM statics0 (copy16 memDiag2 (0 + 0) 32) 0 4 32 0).ret ∧
      (invertM statics0 memDiag2 0 4 0 0).mem (0 + 4 + 1) =
        (invertM statics0 (copy16 memDiag2 (0 + 0) 32) 0 4 32 0).mem (0 + 4 + 1) :=
  invertM_in_place statics0 memDiag2 0 4 0 0 32 (Or.inr (by norm_num)) 1 (by norm_num)
    (by norm_num)

end InvertScratchClaims2

/-! ## Further claims about `translateM` and `setLookAtM` -/

section TranslateLookAt

variable {α : Type} [Field α]

/-- C17 (`translateM` is multiplication by a translation matrix): with the
translation matrix `T` (the identity except `tx`, `ty`, `tz` at positions 12,
13, 14) stored at `T` and `r` a separate buffer, the 16 elements left by
`translateM(M, 0, tx, ty, tz)` equal the 16 elements `multiplyMM` writes for
`lhs = M` and `rhs = T`; element `12+i` gains `tx*M[i] + ty*M[4+i] + tz*M[8+i]`
for `i` in 0..3 and the elements 0..11 are unchanged. -/
theorem translateM_eq_multiplyMM (mem : Buf α) (M T r : Int) (tx ty tz : α)
    (hrM : r + 16 ≤ M ∨ M + 16 ≤ r) (hrT : r + 16 ≤ T ∨ T + 16 ≤ r)
    (hT : ∀ k : Int, 0 ≤ k → k < 16 → mem (T + k) = translationAt tx ty tz k) :
    (∀ k : Int, 0 ≤ k → k < 16 →
      translateM mem M 0 tx ty tz (M + k) = multiplyMM mem r M T (r + k)) ∧
    (∀ i : Int, 0 ≤ i → i < 4 →
      translateM mem M 0 tx ty tz (M + (12 + i)) =
        mem (M + (12 + i))
          + (tx * mem (M + i) + ty * mem (M + (4 + i)) + tz * mem (M + (8 + i)))) ∧
    (∀ k : Int, 0 ≤ k → k < 12 → translateM mem M 0 tx ty tz (M + k) = mem (M + k)) := by
  have hgain : ∀ i : Int, 0 ≤ i → i < 4 →
      translateM mem M 0 tx ty tz (M + (12 + i)) =
        mem (M + (12 + i))
          + (tx * mem (M + i) + ty * mem (M + (4 + i)) + tz * mem (M + (8 + i))) := by
    intro i hi0 hi
    have h := translateM_val mem M 0 tx ty tz i hi0 hi
    simp only [add_zero] at h
    rw [h]
    ring
  have hkeep : ∀ k : Int, 0 ≤ k → k < 12 →
      translateM mem M 0 tx ty tz (M + k) = mem (M + k) := by
    intro k hk0 hk
    exact translateM_frame _ _ _ _ _ _ _ (by omega)
  refine ⟨?_, hgain, hkeep⟩
  intro k hk0 hk
  have hk' : k = I (k / 4) (k % 4) := by simp only [I]; omega
  have hi0 : 0 ≤ k / 4 := by omega
  have hi : k / 4 < 4 := by omega
  have hc0 : 0 ≤ k % 4 := by omega
  have hc : k % 4 < 4 := by omega
  generalize k / 4 = i at hk' hi0 hi
  generalize k % 4 = c at hk' hc0 hc
  subst hk'
  rw [multiplyMM_val _ _ _ _ hrM hrT i c hi0 hi hc0 hc,
    hT _ (by simp only [I]; omega) (by simp only [I]; omega),
    hT _ (by simp only [I]; omega) (by simp only [I]; omega),
    hT _ (by simp only [I]; omega) (by simp only [I]; omega),
    hT _ (by simp only [I]; omega) (by simp only [I]; omega)]
  have hi' : i = 0 ∨ i = 1 ∨ i = 2 ∨ i = 3 := by omega
  rcases hi' with rfl | rfl | rfl | rfl
  · rw [hkeep _ (by simp only [I]; omega) (by simp only [I]; omega)]
    simp [translationAt, identityAt, I]
  · rw [hkeep _ (by simp only [I]; omega) (by simp only [I]; omega)]
    simp [translationAt, identityAt, I]
  · rw [hkeep _ (by simp only [I]; omega) (by simp only [I]; omega)]
    simp [translationAt, identityAt, I]
  · have e : M + I 3 c = M + (12 + c) := by simp only [I]; omega
    rw [e, hgain c hc0 hc]
    have e0 : M + I 0 c = M + c := by simp only [I]; omega
    have e1 : M + I 1 c = M + (4 + c) := by simp only [I]; omega
    have e2 : M + I 2 c = M + (8 + c) := by simp only [I]; omega
    rw [e0, e1, e2]
    simp [translationAt, identityAt, I]
    ring

/-- Witness for C17: the matrix with elements 1..16 at address 0, translated
by `(1, 2, 3)`, the translation matrix of `(1, 2, 3)` at address 16 and the
product written at address 32: element 13 is `14 + (1*2 + 2*6 + 3*10)` in both. -/
theorem translateM_eq_multiplyMM_witness :
    translateM memCountTranslation 0 0 1 2 3 (0 + 13) =
        multiplyMM memCountTranslation 32 0 16 (32 + 13) ∧
      translateM memCountTranslation 0 0 1 2 3 (0 + (12 + 1)) =
        memCountTranslation (0 + (12 + 1)) + (1 * memCountTranslation (0 + 1)
          + 2 * memCountTranslation (0 + (4 + 1)) + 3 * memCountTranslation (0 + (8 + 1))) ∧
      memCountTranslation (0 + (12 + 1)) + (1 * memCountTranslation (0 + 1)
        + 2 * memCountTranslation (0 + (4 + 1)) + 3 * memCountTranslation (0 + (8 + 1))) = 58 := by
  have hT : ∀ k : Int, 0 ≤ k → k < 16 →
      memCountTranslation (16 + k) = translationAt 1 2 3 k := by
    intro k hk0 hk
    interval_cases k <;> simp [memCountTranslation, translationAt, identityAt]
  have h := translateM_eq_multiplyMM memCountTranslation 0 16 32 1 2 3 (by norm_num)
    (by norm_num) hT
  refine ⟨h.1 13 (by norm_num) (by norm_num), h.2.1 1 (by norm_num) (by norm_num), ?_⟩
  simp only [memCountTranslation]
  norm_num

/-- The sixteen stores of `setLookAtM` followed by its call of `translateM`,
for arbitrary stored values: the floats 0..11 hold the stored values. -/
theorem stores_translateM_first {β : Type} [Add β] [Mul β] (mem : Buf β) (rm rmOffset : Int)
    (a0 a1 a2 a3 a4 a5 a6 a7 a8 a9 a10 a11 a12 a13 a14 a15 x y z : β) :
    let mem' := translateM
      (wr (wr (wr (wr (wr (wr (wr (wr (wr (wr (wr (wr (wr (wr (wr (wr mem
        (rm + (rmOffset + 0)) a0) (rm + (rmOffset + 1)) a1) (rm + (rmOffset + 2)) a2)
        (rm + (rmOffset + 3)) a3) (rm + (rmOffset + 4)) a4) (rm + (rmOffset + 5)) a5)
        (rm + (rmOffset + 6)) a6) (rm + (rmOffset + 7)) a7) (rm + (rmOffset + 8)) a8)
        (rm + (rmOffset + 9)) a9) (rm + (rmOffset + 10)) a10) (rm + (rmOffset + 11)) a11)
        (rm + (rmOffset + 12)) a12) (rm + (rmOffset + 13)) a13) (rm + (rmOffset + 14)) a14)
        (rm + (rmOffset + 15)) a15) rm rmOffset x y z
    (mem' (rm + rmOffset + 0) = a0 ∧ mem' (rm + rmOffset + 1) = a1 ∧
      mem' (rm + rmOffset + 2) = a2 ∧ mem' (rm + rmOffset + 3) = a3) ∧
    (mem' (rm + rmOffset + 4) = a4 ∧ mem' (rm + rmOffset + 5) = a5 ∧
      mem' (rm + rmOffset + 6) = a6 ∧ mem' (rm + rmOffset + 7) = a7) ∧
    (mem' (rm + rmOffset + 8) = a8 ∧ mem' (rm + rmOffset + 9) = a9 ∧
      mem' (rm + rmOffset + 10) = a10 ∧ mem' (rm + rmOffset + 11) = a11) := by
  intro mem'
  refine ⟨⟨?_, ?_, ?_, ?_⟩, ⟨?_, ?_, ?_, ?_⟩, ⟨?_, ?_, ?_, ?_⟩⟩ <;>
    (simp only [mem']
     rw [translateM_frame _ _ _ _ _ _ _ (by omega)]
     simp (disch := omega) only [wr_eq, wr_of_ne])

/-- The stores of `setLookAtM` with arbitrary rotation part, its call of
`translateM` by `-eye` and `multiplyMV` on `(eye, 1)`: the result is
`(0, 0, 0, 1)`. -/
theorem stores_translateM_multiplyMV_eye (mem : Buf α) (rm rmOffset v r : Int)
    (a0 a1 a2 a4 a5 a6 a8 a9 a10 ex ey ez : α)
    (hv : v + 4 ≤ rm + rmOffset ∨ rm + rmOffset + 16 ≤ v)
    (hr : r + 4 ≤ rm + rmOffset ∨ rm + rmOffset + 16 ≤ r) :
    let mem' := translateM
      (wr (wr (wr (wr (wr (wr (wr (wr (wr (wr (wr (wr (wr (wr (wr (wr
        (storeVec4 mem v ex ey ez 1)
        (rm + (rmOffset + 0)) a0) (rm + (rmOffset + 1)) a1) (rm + (rmOffset + 2)) a2)
        (rm + (rmOffset + 3)) 0) (rm + (rmOffset + 4)) a4) (rm + (rmOffset + 5)) a5)
        (rm + (rmOffset + 6)) a6) (rm + (rmOffset + 7)) 0) (rm + (rmOffset + 8)) a8)
        (rm + (rmOffset + 9)) a9) (rm + (rmOffset + 10)) a10) (rm + (rmOffset + 11)) 0)
        (rm + (rmOffset + 12)) 0) (rm + (rmOffset + 13)) 0) (rm + (rmOffset + 14)) 0)
        (rm + (rmOffset + 15)) 1) rm rmOffset (-ex) (-ey) (-ez)
    multiplyMV mem' r (rm + rmOffset) v (r + 0) = 0 ∧
      multiplyMV mem' r (rm + rmOffset) v (r + 1) = 0 ∧
      multiplyMV mem' r (rm + rmOffset) v (r + 2) = 0 ∧
      multiplyMV mem' r (rm + rmOffset) v (r + 3) = 1 := by
  intro mem'
  obtain ⟨s0, s1, s2, s3⟩ := storeVec4_val mem v ex ey ez 1
  have hvec : ∀ p : Int, v ≤ p → p < v + 4 → mem' p = storeVec4 mem v ex ey ez 1 p := by
    intro p hp0 hp
    simp only [mem']
    rw [translateM_frame _ _ _ _ _ _ _ (by omega)]
    simp (disch := omega) only [wr_of_ne]
  obtain ⟨⟨f0, f1, f2, f3⟩, ⟨f4, f5, f6, f7⟩, ⟨f8, f9, f10, f11⟩⟩ :=
    stores_translateM_first (storeVec4 mem v ex ey ez 1) rm rmOffset
      a0 a1 a2 0 a4 a5 a6 0 a8 a9 a10 0 0 0 0 1 (-ex) (-ey) (-ez)
  obtain ⟨l0, l1, l2, l3⟩ :=
    stores_translateM_last (storeVec4 mem v ex ey ez 1) rm rmOffset
      a0 a1 a2 0 a4 a5 a6 0 a8 a9 a10 0 0 0 0 1 (-ex) (-ey) (-ez)
  rw [multiplyMV_val _ _ _ _ hr 0 (by norm_num) (by norm_num),
    multiplyMV_val _ _ _ _ hr 1 (by norm_num) (by norm_num),
    multiplyMV_val _ _ _ _ hr 2 (by norm_num) (by norm_num),
    multiplyMV_val _ _ _ _ hr 3 (by norm_num) (by norm_num),
    hvec (v + 0) (by omega) (by omega), hvec (v + 1) (by omega) (by omega),
    hvec (v + 2) (by omega) (by omega), hvec (v + 3) (by omega) (by omega), s0, s1, s2, s3]
  simp only [mem']
  simp only [Int.reduceMul, Int.reduceAdd, add_zero, zero_add] at f0 f1 f2 f3 f4 f5 f6 f7 f8 ⊢
  simp only [Int.reduceMul, Int.reduceAdd, add_zero, zero_add] at f9 f10 f11 l0 l1 l2 l3
  rw [f0, f1, f2, f3, f4, f5, f6, f7, f8, f9, f10, f11, l0, l1, l2, l3]
  refine ⟨?_, ?_, ?_, ?_⟩ <;> ring

/-- The stores of `setLookAtM` with arbitrary rotation part, its call of
`translateM` by `(x, y, z)` and `multiplyMV` on `(ex, ey, ez, 1)`, in every
arithmetic: the four sums of the result, as the source computes them. -/
theorem stores_translateM_multiplyMV_sums {β : Type} [Zero β] [One β] [Add β] [Mul β]
    (mem : Buf β) (rm rmOffset v r : Int)
    (a0 a1 a2 a4 a5 a6 a8 a9 a10 ex ey ez x y z : β)
    (hv : v + 4 ≤ rm + rmOffset ∨ rm + rmOffset + 16 ≤ v)
    (hr : r + 4 ≤ rm + rmOffset ∨ rm + rmOffset + 16 ≤ r) :
    let mem' := translateM
      (wr (wr (wr (wr (wr (wr (wr (wr (wr (wr (wr (wr (wr (wr (wr (wr
        (storeVec4 mem v ex ey ez 1)
        (rm + (rmOffset + 0)) a0) (rm + (rmOffset + 1)) a1) (rm + (rmOffset + 2)) a2)
        (rm + (rmOffset + 3)) 0) (rm + (rmOffset + 4)) a4) (rm + (rmOffset + 5)) a5)
        (rm + (rmOffset + 6)) a6) (rm + (rmOffset + 7)) 0) (rm + (rmOffset + 8)) a8)
        (rm + (rmOffset + 9)) a9) (rm + (rmOffset + 10)) a10) (rm + (rmOffset + 11)) 0)
        (rm + (rmOffset + 12)) 0) (rm + (rmOffset + 13)) 0) (rm + (rmOffset + 14)) 0)
        (rm + (rmOffset + 15)) 1) rm rmOffset x y z
    multiplyMV mem' r (rm + rmOffset) v (r + 0) =
        a0 * ex + a4 * ey + a8 * ez + (0 + (a0 * x + a4 * y + a8 * z)) * 1 ∧
      multiplyMV mem' r (rm + rmOffset) v (r + 1) =
        a1 * ex + a5 * ey + a9 * ez + (0 + (a1 * x + a5 * y + a9 * z)) * 1 ∧
      multiplyMV mem' r (rm + rmOffset) v (r + 2) =
        a2 * ex + a6 * ey + a10 * ez + (0 + (a2 * x + a6 * y + a10 * z)) * 1 ∧
      multiplyMV mem' r (rm + rmOffset) v (r + 3) =
        0 * ex + 0 * ey + 0 * ez + (1 + (0 * x + 0 * y + 0 * z)) * 1 := by
  intro mem'
  obtain ⟨s0, s1, s2, s3⟩ := storeVec4_val mem v ex ey ez 1
  have hvec : ∀ p : Int, v ≤ p → p < v + 4 → mem' p = storeVec4 mem v ex ey ez 1 p := by
    intro p hp0 hp
    simp only [mem']
    rw [translateM_frame _ _ _ _ _ _ _ (by omega)]
    simp (disch := omega) only [wr_of_ne]
  obtain ⟨⟨f0, f1, f2, f3⟩, ⟨f4, f5, f6, f7⟩, ⟨f8, f9, f10, f11⟩⟩ :=
    stores_translateM_first (storeVec4 mem v ex ey ez 1) rm rmOffset
      a0 a1 a2 0 a4 a5 a6 0 a8 a9 a10 0 0 0 0 1 x y z
  obtain ⟨l0, l1, l2, l3⟩ :=
    stores_translateM_last (storeVec4 mem v ex ey ez 1) rm rmOffset
      a0 a1 a2 0 a4 a5 a6 0 a8 a9 a10 0 0 0 0 1 x y z
  rw [multiplyMV_val _ _ _ _ hr 0 (by norm_num) (by norm_num),
    multiplyMV_val _ _ _ _ hr 1 (by norm_num) (by norm_num),
    multiplyMV_val _ _ _ _ hr 2 (by norm_num) (by norm_num),
    multiplyMV_val _ _ _ _ hr 3 (by norm_num) (by norm_num),
    hvec (v + 0) (by omega) (by omega), hvec (v + 1) (by omega) (by omega),
    hvec (v + 2) (by omega) (by omega), hvec (v + 3) (by omega) (by omega), s0, s1, s2, s3]
  simp only [mem']
  simp only [Int.reduceMul, Int.reduceAdd, Int.add_zero, Int.zero_add] at f0 f1 f2 f3 f4 f5 f6 f7 f8 ⊢
  simp only [Int.reduceMul, Int.reduceAdd, Int.add_zero, Int.zero_add] at f9 f10 f11 l0 l1 l2 l3
  rw [f0, f1, f2, f3, f4, f5, f6, f7, f8, f9, f10, f11, l0, l1, l2, l3]
  exact ⟨rfl, rfl, rfl, rfl⟩

/-- The stores of `setLookAtM` with arbitrary rotation part, its call of
`translateM` by `-eye` and `multiplyMV` on `(eye, 1)`, in binary32: each of
the first three components of the result is 0 or NaN and the fourth is 1 or
NaN. -/
theorem stores_translateM_multiplyMV_eye_binary32 (mem : Buf F32) (rm rmOffset v r : Int)
    (a0 a1 a2 a4 a5 a6 a8 a9 a10 ex ey ez : F32)
    (hv : v + 4 ≤ rm + rmOffset ∨ rm + rmOffset + 16 ≤ v)
    (hr : r + 4 ≤ rm + rmOffset ∨ rm + rmOffset + 16 ≤ r) (i : Int) (hi0 : 0 ≤ i) (hi : i < 3) :
    let mem' := translateM
      (wr (wr (wr (wr (wr (wr (wr (wr (wr (wr (wr (wr (wr (wr (wr (wr
        (storeVec4 mem v ex ey ez 1)
        (rm + (rmOffset + 0)) a0) (rm + (rmOffset + 1)) a1) (rm + (rmOffset + 2)) a2)
        (rm + (rmOffset + 3)) 0) (rm + (rmOffset + 4)) a4) (rm + (rmOffset + 5)) a5)
        (rm + (rmOffset + 6)) a6) (rm + (rmOffset + 7)) 0) (rm + (rmOffset + 8)) a8)
        (rm + (rmOffset + 9)) a9) (rm + (rmOffset + 10)) a10) (rm + (rmOffset + 11)) 0)
        (rm + (rmOffset + 12)) 0) (rm + (rmOffset + 13)) 0) (rm + (rmOffset + 14)) 0)
        (rm + (rmOffset + 15)) 1) rm rmOffset (-ex) (-ey) (-ez)
    (multiplyMV mem' r (rm + rmOffset) v (r + i) = 0 ∨
        multiplyMV mem' r (rm + rmOffset) v (r + i) = F32.nan) ∧
      (multiplyMV mem' r (rm + rmOffset) v (r + 3) = 1 ∨
        multiplyMV mem' r (rm + rmOffset) v (r + 3) = F32.nan) := by
  intro mem'
  obtain ⟨h0, h1, h2, h3⟩ := stores_translateM_multiplyMV_sums mem rm rmOffset v r
    a0 a1 a2 a4 a5 a6 a8 a9 a10 ex ey ez (-ex) (-ey) (-ez) hv hr
  have hi' : i = 0 ∨ i = 1 ∨ i = 2 := by omega
  refine ⟨?_, ?_⟩
  · rcases hi' with rfl | rfl | rfl
    · rw [h0]
      simp only [F32.mul_neg_float]
      exact F32.sum_cancel _ _ _ (F32.isFloat_mul _ _) (F32.isFloat_mul _ _) (F32.isFloat_mul _ _)
    · rw [h1]
      simp only [F32.mul_neg_float]
      exact F32.sum_cancel _ _ _ (F32.isFloat_mul _ _) (F32.isFloat_mul _ _) (F32.isFloat_mul _ _)
    · rw [h2]
      simp only [F32.mul_neg_float]
      exact F32.sum_cancel _ _ _ (F32.isFloat_mul _ _) (F32.isFloat_mul _ _) (F32.isFloat_mul _ _)
  · rw [h3]
    exact F32.last_component _ _ _

/-- In binary32, for every input, `setLookAtM` followed by `multiplyMV` on
`(eyeX, eyeY, eyeZ, 1)` yields 0 or NaN in each of the first three components
and 1 or NaN in the fourth. -/
theorem setLookAtM_eye_binary32 (L : Libm F32) (mem : Buf F32) (rm rmOffset v r : Int)
    (eyeX eyeY eyeZ centerX centerY centerZ upX upY upZ : F32)
    (hv : v + 4 ≤ rm + rmOffset ∨ rm + rmOffset + 16 ≤ v)
    (hr : r + 4 ≤ rm + rmOffset ∨ rm + rmOffset + 16 ≤ r) (i : Int) (hi0 : 0 ≤ i) (hi : i < 3) :
    (multiplyMV (setLookAtM L (storeVec4 mem v eyeX eyeY eyeZ 1) rm rmOffset eyeX eyeY eyeZ
        centerX centerY centerZ upX upY upZ) r (rm + rmOffset) v (r + i) = 0 ∨
      multiplyMV (setLookAtM L (storeVec4 mem v eyeX eyeY eyeZ 1) rm rmOffset eyeX eyeY eyeZ
        centerX centerY centerZ upX upY upZ) r (rm + rmOffset) v (r + i) = F32.nan) ∧
    (multiplyMV (setLookAtM L (storeVec4 mem v eyeX eyeY eyeZ 1) rm rmOffset eyeX eyeY eyeZ
        centerX centerY centerZ upX upY upZ) r (rm + rmOffset) v (r + 3) = 1 ∨
      multiplyMV (setLookAtM L (storeVec4 mem v eyeX eyeY eyeZ 1) rm rmOffset eyeX eyeY eyeZ
        centerX centerY centerZ upX upY upZ) r (rm + rmOffset) v (r + 3) = F32.nan) := by
  simp only [setLookAtM]
  exact stores_translateM_multiplyMV_eye_binary32 mem rm rmOffset v r _ _ _ _ _ _ _ _ _
    eyeX eyeY eyeZ hv hr i hi0 hi

/-- C19 (amended): in exact arithmetic (the source run over a field), for
every eye, center and up for which `f = normalize(center - eye)` and
`s = normalize(f x up)` are defined (non-zero lengths), whatever the values of
the normalisation factors are, with the vector buffer `v` and the result
buffer `r` apart from the matrix, `setLookAtM` followed by `multiplyMV` on
`(eyeX, eyeY, eyeZ, 1)` yields `(0, 0, 0, 1)`.  In binary32, for every eye,
center and up, it yields 0 or NaN in each of the first three components and
1 or NaN in the fourth. -/
theorem setLookAtM_eye_to_origin (L : Libm α) (mem : Buf α) (rm rmOffset v r : Int)
    (eyeX eyeY eyeZ centerX centerY centerZ upX upY upZ : α)
    (hv : v + 4 ≤ rm + rmOffset ∨ rm + rmOffset + 16 ≤ v)
    (hr : r + 4 ≤ rm + rmOffset ∨ rm + rmOffset + 16 ≤ r)
    (_hf : vlength L (centerX - eyeX, centerY - eyeY, centerZ - eyeZ) ≠ 0)
    (_hs : vlength L (cross (normalize L (centerX - eyeX, centerY - eyeY, centerZ - eyeZ))
      (upX, upY, upZ)) ≠ 0) :
    multiplyMV (setLookAtM L (storeVec4 mem v eyeX eyeY eyeZ 1) rm rmOffset eyeX eyeY eyeZ
        centerX centerY centerZ upX upY upZ) r (rm + rmOffset) v (r + 0) = 0 ∧
    multiplyMV (setLookAtM L (storeVec4 mem v eyeX eyeY eyeZ 1) rm rmOffset eyeX eyeY eyeZ
        centerX centerY centerZ upX upY upZ) r (rm + rmOffset) v (r + 1) = 0 ∧
    multiplyMV (setLookAtM L (storeVec4 mem v eyeX eyeY eyeZ 1) rm rmOffset eyeX eyeY eyeZ
        centerX centerY centerZ upX upY upZ) r (rm + rmOffset) v (r + 2) = 0 ∧
    multiplyMV (setLookAtM L (storeVec4 mem v eyeX eyeY eyeZ 1) rm rmOffset eyeX eyeY eyeZ
        centerX centerY centerZ upX upY upZ) r (rm + rmOffset) v (r + 3) = 1 ∧
    ∀ (L32 : Libm F32) (m32 : Buf F32) (ex ey ez cx cy cz ux uy uz : F32) (i : Int),
      0 ≤ i → i < 3 →
      (multiplyMV (setLookAtM L32 (storeVec4 m32 v ex ey ez 1) rm rmOffset ex ey ez
          cx cy cz ux uy uz) r (rm + rmOffset) v (r + i) = 0 ∨
        multiplyMV (setLookAtM L32 (storeVec4 m32 v ex ey ez 1) rm rmOffset ex ey ez
          cx cy cz ux uy uz) r (rm + rmOffset) v (r + i) = F32.nan) ∧
      (multiplyMV (setLookAtM L32 (storeVec4 m32 v ex ey ez 1) rm rmOffset ex ey ez
          cx cy cz ux uy uz) r (rm + rmOffset) v (r + 3) = 1 ∨
        multiplyMV (setLookAtM L32 (storeVec4 m32 v ex ey ez 1) rm rmOffset ex ey ez
          cx cy cz ux uy uz) r (rm + rmOffset) v (r + 3) = F32.nan) := by
  have key := fun a0 a1 a2 a4 a5 a6 a8 a9 a10 : α =>
    stores_translateM_multiplyMV_eye mem rm rmOffset v r a0 a1 a2 a4 a5 a6 a8 a9 a10
      eyeX eyeY eyeZ hv hr
  refine ⟨?_, ?_, ?_, ?_, fun L32 m32 ex ey ez cx cy cz ux uy uz i hi0 hi =>
    setLookAtM_eye_binary32 L32 m32 rm rmOffset v r ex ey ez cx cy cz ux uy uz hv hr i hi0 hi⟩ <;>
    simp only [setLookAtM]
  · exact (key _ _ _ _ _ _ _ _ _).1
  · exact (key _ _ _ _ _ _ _ _ _).2.1
  · exact (key _ _ _ _ _ _ _ _ _).2.2.1
  · exact (key _ _ _ _ _ _ _ _ _).2.2.2

/-- Witness for C19 (amended): the camera at `(0,0,5)` looking at the origin
with up `(0,1,0)`, where `f` has length 5 and `f x up` has length 1; matrix at
address 0, eye vector at 16, result at 20. -/
theorem setLookAtM_eye_to_origin_witness :
    multiplyMV (setLookAtM ⟨Real.sin, Real.cos, Real.sqrt, Real.pi⟩
      (storeVec4 (fun _ => 0) 16 0 0 5 1) 0 0 0 0 5 0 0 0 0 1 0) 20 (0 + 0) 16 (20 + 2) = 0 :=
  (setLookAtM_eye_to_origin ⟨Real.sin, Real.cos, Real.sqrt, Real.pi⟩ (fun _ => 0) 0 0 16 20
    0 0 5 0 0 0 0 1 0 (by norm_num) (by norm_num)
    (by norm_num [vlength, dot, sqrt_twenty_five])
    (by norm_num [vlength, dot, cross, normalize, sqrt_twenty_five])).2.2.1

end TranslateLookAt

/-! ## Orthogonality of the matrix written by `rotateM` -/

section RotateOrthogonal

variable {α : Type} [Field α]

end RotateOrthogonal

section RotateOrthogonal2

variable {α : Type} [Field α] [DecidableEq α]

end RotateOrthogonal2

/-! ## The claims in binary32 arithmetic

The same source functions run on `F32`.  Every statement is a closed
evaluation. -/

section Binary32

set_option maxRecDepth 100000 in
/-- Counterexample to C1 as stated, in the arithmetic of the program.  The
matrix with `2^-40` on the diagonal has determinant `2^-160`, not zero, but the
`det` that `invertM` computes underflows to 0 and `invertM` returns false.
The matrix with `2^40` on the diagonal has determinant `2^160`, not zero, and
`invertM` returns true, but its `det` overflows to infinity, `invdet` is 0 and
the stored inverse is zero: `multiplyMM(tmp, M, inv)` leaves 0 at position 0
of `tmp`, where the identity matrix has 1. -/
theorem invertM_round_trip_binary32_counterexample :
    Matrix.det (toMatrix (fun p => (memTiny32 p).toRat) 0) ≠ 0 ∧
      (invertM statics32 memTiny32 16 0 0 0).ret = false ∧
      Matrix.det (toMatrix (fun p => (memHuge32 p).toRat) 0) ≠ 0 ∧
      (invertM statics32 memHuge32 16 0 0 0).ret = true ∧
      multiplyMM (invertM statics32 memHuge32 16 0 0 0).mem 32 0 16 (32 + 0) = 0 ∧
      (0 : F32) ≠ 1 := by
  have e3 : ((3 : Fin 4) : ℕ) = 3 := rfl
  have z : F32.toRat 0 = 0 := by
    show F32.toRat F32.zero = 0
    simp [F32.zero, F32.toRat]
  refine ⟨?_, by decide, ?_, by decide, by decide, by decide⟩
  · rw [det_fin_four_expand]
    simp [toMatrix, I, memTiny32, e3, z]
    norm_num [F32.toRat]
  · rw [det_fin_four_expand]
    simp [toMatrix, I, memHuge32, e3, z]
    norm_num [F32.toRat]

set_option maxRecDepth 100000 in
/-- Counterexample to C11 as stated, in the arithmetic of the program.  For
`rotateM(m, 0, 90, 0, 1, 0)` the axis has length `sqrt(1) = 1`, the angle in
radians is the float nearest to pi/2, `sin` is 1 and
`cos` is `-4.37113883e-8`, both finite binary32 values, the fast path stores
1 at position 5, and the general-axis branch stores
`y*y*nc + c = 0.99999994 = 16777215 * 2^-24` there: `nc = 1 - c` rounds to 1
and `1 + c` rounds to the float below 1. -/
theorem rotateM_fast_path_binary32_counterexample :
    libm32.sqrt 1 = 1 ∧
      libm32.M_PI / 180 = F32.fin false 9370165 (-29) ∧
      F32.ofNat 90 * (libm32.M_PI / 180) = quarterTurn32 ∧
      libm32.sin (F32.ofNat 90 * (libm32.M_PI / 180)) = 1 ∧
      libm32.cos (F32.ofNat 90 * (libm32.M_PI / 180)) = F32.fin true 12303662 (-48) ∧
      F32.IsFloat (F32.fin true 12303662 (-48)) ∧
      1 - libm32.cos (F32.ofNat 90 * (libm32.M_PI / 180)) = 1 ∧
      rotateM libm32 (fun _ => 0) 0 0 (F32.ofNat 90) 0 1 0 (0 + 0 + 5) = 1 ∧
      rotateM_general libm32 (fun _ => 0) 0 0 (F32.ofNat 90) 0 1 0 (0 + 0 + 5) =
        F32.fin false 16777215 (-24) := by
  refine ⟨by decide, by decide, by decide, by decide, by decide, by decide, by decide,
    by decide, by decide⟩

set_option maxRecDepth 100000 in
/-- Counterexample to C19 as stated, in the arithmetic of the program.  For
`eye = (0,0,5)`, `center = (0,0,0)`, `up = (0,0,1)` the vector `f x up` is zero,
`1 / sqrt(0)` is infinity and `0 * inf` is NaN: `setLookAtM` followed by
`multiplyMV` on `(0, 0, 5, 1)` yields `(NaN, NaN, 0, 1)`. -/
theorem setLookAtM_eye_binary32_counterexample :
    multiplyMV (setLookAtM libm32 (storeVec4 (fun _ => 0) 16 0 0 (F32.ofNat 5) 1) 0 0
        0 0 (F32.ofNat 5) 0 0 0 0 0 1) 20 (0 + 0) 16 (20 + 0) = F32.nan ∧
      multiplyMV (setLookAtM libm32 (storeVec4 (fun _ => 0) 16 0 0 (F32.ofNat 5) 1) 0 0
        0 0 (F32.ofNat 5) 0 0 0 0 0 1) 20 (0 + 0) 16 (20 + 1) = F32.nan ∧
      multiplyMV (setLookAtM libm32 (storeVec4 (fun _ => 0) 16 0 0 (F32.ofNat 5) 1) 0 0
        0 0 (F32.ofNat 5) 0 0 0 0 0 1) 20 (0 + 0) 16 (20 + 2) = 0 ∧
      multiplyMV (setLookAtM libm32 (storeVec4 (fun _ => 0) 16 0 0 (F32.ofNat 5) 1) 0 0
        0 0 (F32.ofNat 5) 0 0 0 0 0 1) 20 (0 + 0) 16 (20 + 3) = 1 := by
  refine ⟨by decide, by decide, by decide, by decide⟩

end Binary32

end LibGL
